import Mathlib

/-!
Verification of the asynchronous upload pipeline (`lib/aio`): the chunked
streaming uploader (`s3streamer.py`), the LRU cache and async queue
(`util.py`), the serialized outbound HTTP queue (`httpqueue.py`), the
conditional-GET GitHub client (`github.py`) and the S3 credential lookup
(`s3.py`).

Modelling conventions:
* byte strings (`bytes`) and filenames (`str`) are modelled as `List Nat`
  of byte / code-point values;
* the object-store destination is an association list from names to contents,
  where a write prepends (shadowing earlier bindings) and a delete removes
  every binding of the deleted names;
* the incremental UTF-8 decoder with `errors='replace'` is modelled by the
  standard one-byte-at-a-time UTF-8 state machine (codepoint accumulator,
  remaining continuation count, and the lower/upper bound of the next valid
  continuation byte), emitting U+FFFD for invalid input;
* `asyncio` timers are modelled by a boolean flag (armed / not armed) and the
  timer callback firing is an explicit `flush` operation;
* the single-threaded cooperative scheduling of the HTTP consumer is modelled
  by a small-step transition relation with an explicit rational clock.
-/

namespace Bots

/-! ### Byte-level stores and decimal / JSON rendering -/

def storeGet : List (List Nat × List Nat) → List Nat → Option (List Nat)
  | [], _ => none
  | (k, v) :: rest, key => if k = key then some v else storeGet rest key

def storeWrite (store : List (List Nat × List Nat)) (key value : List Nat) :
    List (List Nat × List Nat) :=
  (key, value) :: store

def storeDelete (store : List (List Nat × List Nat)) (names : List (List Nat)) :
    List (List Nat × List Nat) :=
  store.filter (fun p => decide (p.1 ∉ names))

/-- Digit-extraction loop.  The `fuel` argument only forces structural
termination: one unit is spent per emitted digit, so any fuel of at least the
digit count of `n` (for instance `n + 1`) yields the exact decimal digits. -/
def digitsAux (fuel n : Nat) (acc : List Nat) : List Nat :=
  match fuel with
  | 0 => acc
  | fuel + 1 =>
    if n < 10 then (48 + n) :: acc
    else digitsAux fuel (n / 10) ((48 + n % 10) :: acc)

/-- ASCII decimal digits of `n`, as Python `str(n)` renders a nonnegative int. -/
def decBytes (n : Nat) : List Nat := digitsAux (n + 1) n []

/-- Join byte lists with the separator `", "` (bytes 44, 32), as Python
`json.dumps` separates list items. -/
def joinComma : List (List Nat) → List Nat
  | [] => []
  | [x] => x
  | x :: y :: rest => x ++ 44 :: 32 :: joinComma (y :: rest)

/-- The bytes of `json.dumps(sizes).encode('ascii')` for a list of integers. -/
def jsonBytes (sizes : List Nat) : List Nat :=
  91 :: joinComma (sizes.map decBytes) ++ [93]

/-! ### Incremental UTF-8 decoding with replacement, and UTF-8 encoding -/

structure DecState where
  cp : Nat
  needed : Nat
  lo : Nat
  hi : Nat
deriving DecidableEq

def initDec : DecState := ⟨0, 0, 128, 191⟩

/-- Process one byte from the initial (no pending sequence) decoder state. -/
def decByteStart (b : Nat) : List Nat × DecState :=
  if b ≤ 127 then ([b], initDec)
  else if 194 ≤ b ∧ b ≤ 223 then ([], ⟨b % 32, 1, 128, 191⟩)
  else if 224 ≤ b ∧ b ≤ 239 then
    ([], ⟨b % 16, 2, if b = 224 then 160 else 128, if b = 237 then 159 else 191⟩)
  else if 240 ≤ b ∧ b ≤ 244 then
    ([], ⟨b % 8, 3, if b = 240 then 144 else 128, if b = 244 then 143 else 191⟩)
  else ([65533], initDec)

/-- Process one byte: emitted code points and the successor decoder state. -/
def decByte (s : DecState) (b : Nat) : List Nat × DecState :=
  if s.needed = 0 then decByteStart b
  else if s.lo ≤ b ∧ b ≤ s.hi then
    if s.needed = 1 then ([s.cp * 64 + b % 64], initDec)
    else ([], ⟨s.cp * 64 + b % 64, s.needed - 1, 128, 191⟩)
  else
    let p := decByteStart b
    (65533 :: p.1, p.2)

def decChunk (s : DecState) : List Nat → List Nat × DecState
  | [] => ([], s)
  | b :: rest =>
    let p := decByte s b
    let q := decChunk p.2 rest
    (p.1 ++ q.1, q.2)

/-- End-of-stream handling: an incomplete sequence is replaced. -/
def decFlush (s : DecState) : List Nat × DecState :=
  if s.needed ≠ 0 then ([65533], initDec) else ([], s)

/-- `codecs.getincrementaldecoder('UTF-8')(errors='replace').decode(bs, final)`. -/
def decode (s : DecState) (bs : List Nat) (final : Bool) : List Nat × DecState :=
  let p := decChunk s bs
  if final then
    let q := decFlush p.2
    (p.1 ++ q.1, q.2)
  else p

/-- UTF-8 encoding of a single code point. -/
def encCp (c : Nat) : List Nat :=
  if c ≤ 127 then [c]
  else if c ≤ 2047 then [192 + c / 64, 128 + c % 64]
  else if c ≤ 65535 then [224 + c / 4096, 128 + c / 64 % 64, 128 + c % 64]
  else [240 + c / 262144, 128 + c / 4096 % 64, 128 + c / 64 % 64, 128 + c % 64]

/-- UTF-8 encoding of a sequence of code points (`str.encode('utf-8')`). -/
def encAll (cs : List Nat) : List Nat := (cs.map encCp).flatten

/-! ### ChunkedUploader (`s3streamer.py`)

State of one `ChunkedUploader` together with its `Index` and the destination
object store it writes through.  A chunk is a list of byte blocks. -/

def SIZE_LIMIT : Nat := 1000000

def TIME_LIMIT : Nat := 30

/-- The suffix of the chunks manifest: the bytes of the string `chunks`. -/
def chunksSfx : List Nat := [99, 104, 117, 110, 107, 115]

structure UpState where
  chunks : List (List (List Nat))
  pending : List Nat
  suffixes : List (List Nat)
  dec : DecState
  timer : Bool
  files : List (List Nat)
  dirty : Bool
  store : List (List Nat × List Nat)
deriving DecidableEq

def upInit : UpState :=
  { chunks := [], pending := [], suffixes := [chunksSfx], dec := initDec,
    timer := false, files := [], dirty := true, store := [] }

/-- Total byte length of one chunk (`sum(len(block) for block in chunk)`). -/
def chunkSize (c : List (List Nat)) : Nat := (c.map List.length).sum

/-- Concatenation of the blocks of one chunk (`b''.join(chunk)`). -/
def chunkBytes (c : List (List Nat)) : List Nat := c.flatten

/-- Concatenation of all blocks of all chunks. -/
def chunksFlat (cs : List (List (List Nat))) : List Nat := (cs.map List.flatten).flatten

/-- One state of the 2048 merge loop on the reversed chunk list: `x` is the
current last chunk, the argument list the remaining earlier chunks (newest
first).  While the next chunk holds the same number of blocks as `x`, the two
are replaced by their concatenation. -/
def mergeStep (x : List (List Nat)) : List (List (List Nat)) → List (List (List Nat))
  | [] => [x]
  | y :: rest =>
    if x.length = y.length then mergeStep (y ++ x) rest
    else x :: y :: rest

/-- The 2048 merge loop, acting on the reversed chunk list: while the last two
chunks hold the same number of blocks, replace them by their concatenation. -/
def mergeRev : List (List (List Nat)) → List (List (List Nat))
  | [] => []
  | x :: rest => mergeStep x rest

def mergeChunks (l : List (List (List Nat))) : List (List (List Nat)) :=
  (mergeRev l.reverse).reverse

/-- `set.add` on the suffix collection. -/
def addSfx (l : List (List Nat)) (s : List Nat) : List (List Nat) :=
  if s ∈ l then l else l ++ [s]

/-- `Index.write`: write through to the destination and record the filename. -/
def indexWrite (st : UpState) (name data : List Nat) : UpState :=
  { st with store := storeWrite st.store name data,
            files := if name ∈ st.files then st.files else st.files ++ [name],
            dirty := true }

/-- `AttachmentsDirectory.scan` over the bundled asset tree: upload every asset
whose name the index does not already know. -/
def scanAssets (st : UpState) (assets : List (List Nat × List Nat)) : UpState :=
  assets.foldl (fun s p => if p.1 ∈ s.files then s else indexWrite s p.1 p.2) st

/-- `ChunkedUploader.send_pending`: move `pending` into the chunk list as a
one-block chunk, run the 2048 merge, write the last chunk's range artifact and
the `.chunks` manifest. -/
def sendPending (fn : List Nat) (st : UpState) : UpState :=
  let chunks := mergeChunks (st.chunks ++ [[st.pending]])
  let sizes := chunks.map chunkSize
  let base := { st with chunks := chunks, pending := [], timer := false }
  let st1 :=
    if sizes.isEmpty then base
    else
      let s := sizes.dropLast.sum
      let e := s + sizes.getLastD 0
      let sfx := decBytes s ++ 45 :: decBytes e
      { base with
        store := storeWrite base.store (fn ++ 46 :: sfx) (chunkBytes (chunks.getLastD [])),
        suffixes := addSfx base.suffixes sfx }
  { st1 with store := storeWrite st1.store (fn ++ 46 :: chunksSfx) (jsonBytes sizes) }

/-- `ChunkedUploader.start`: seed `pending` with the encoded initial text,
flush immediately, then mirror the bundled static assets through the index. -/
def startOp (fn : List Nat) (assets : List (List Nat × List Nat)) (cps : List Nat)
    (st : UpState) : UpState :=
  scanAssets (sendPending fn { st with pending := encAll cps }) assets

/-- The `final` branch of `ChunkedUploader.write`: cancel the timer, write the
whole accepted stream under the bare name through the index, then delete every
accumulated auxiliary artifact. -/
def writeFinal (fn : List Nat) (st : UpState) : UpState :=
  let st := { st with timer := false }
  let st := indexWrite st fn (chunksFlat st.chunks ++ st.pending)
  { st with store := storeDelete st.store (st.suffixes.map (fun s => fn ++ 46 :: s)) }

/-- The non-final branch of `ChunkedUploader.write`: flush immediately past
the size limit, otherwise arm the timer if none is armed. -/
def writeNF (fn : List Nat) (st : UpState) : UpState :=
  if st.pending ≠ [] then
    if SIZE_LIMIT < st.pending.length then sendPending fn st
    else if st.timer = false then { st with timer := true }
    else st
  else st

/-- `ChunkedUploader.write(data, final)`: transcode through the incremental
decoder, append to `pending`, then take the final or non-final branch. -/
def writeOp (fn : List Nat) (st : UpState) (data : List Nat) (final : Bool) : UpState :=
  let p := decode st.dec data final
  let st := { st with pending := st.pending ++ encAll p.1, dec := p.2 }
  if final then writeFinal fn st else writeNF fn st

inductive UpOp
  | start (cps : List Nat)
  | write (data : List Nat) (final : Bool)
  | flush
deriving DecidableEq

def upStep (fn : List Nat) (assets : List (List Nat × List Nat)) (st : UpState) :
    UpOp → UpState
  | .start cps => startOp fn assets cps st
  | .write data final => writeOp fn st data final
  | .flush => sendPending fn st

def upRun (fn : List Nat) (assets : List (List Nat × List Nat)) (ops : List UpOp) :
    UpState :=
  ops.foldl (upStep fn assets) upInit

/-- The bytes the uploader has accepted, after incremental UTF-8 decoding with
replacement and re-encoding: `start` contributes its encoded text, each `write`
the re-encoded output of the incremental decoder. -/
def accepted : List UpOp → List Nat × DecState → List Nat × DecState
  | [], p => p
  | UpOp.start cps :: rest, p => accepted rest (p.1 ++ encAll cps, p.2)
  | UpOp.write d f :: rest, p =>
    accepted rest (p.1 ++ encAll (decode p.2 d f).1, (decode p.2 d f).2)
  | UpOp.flush :: rest, p => accepted rest p

/-! ### LRUCache (`util.py`)

An insertion-ordered mapping, oldest binding first, newest binding last,
mirroring Python dict iteration order. -/

variable {K V : Type} [DecidableEq K] [DecidableEq V]

/-- `dict.get`: first (and, with unique keys, only) binding of `k`. -/
def lruGet : List (K × V) → K → Option V
  | [], _ => none
  | (k1, v1) :: rest, k => if k1 = k then some v1 else lruGet rest k

/-- The eviction loop of `LRUCache.add`: pop the oldest entry while the size
exceeds `m`. -/
def evict (m : Nat) : List (K × V) → List (K × V)
  | [] => []
  | x :: t => if m < (x :: t).length then evict m t else x :: t

/-- `LRUCache.add`: drop any prior binding of `k`, insert `(k, v)` at the
newest position, then evict from the oldest end until the size is at most
`m`. -/
def lruAdd (m : Nat) (c : List (K × V)) (k : K) (v : V) : List (K × V) :=
  evict m (c.filter (fun p => p.1 ≠ k) ++ [(k, v)])

inductive LruOp (K V : Type)
  | add (k : K) (v : V)
  | get (k : K)

def lruStep (m : Nat) (c : List (K × V)) : LruOp K V → List (K × V)
  | .add k v => lruAdd m c k v
  | .get _ => c

def lruRun (m : Nat) (ops : List (LruOp K V)) : List (K × V) :=
  ops.foldl (lruStep m) []

/-! ### HTTP requests and the outbound queue (`httpqueue.py`) -/

structure S3Key where
  access : String
  secret : String
deriving DecidableEq

/-- `HttpRequest`: an immutable outbound request. -/
structure Req where
  method : String
  url : String
  headers : List (String × String)
  data : List Nat
  s3Key : Option S3Key
deriving DecidableEq

/-- The header set `run_queue` sends: signed via the abstract signer when the
request carries a credential, otherwise the request's own headers. -/
def signedHeaders (sign : Req → S3Key → List (String × String)) (req : Req) :
    List (String × String) :=
  match req.s3Key with
  | some k => sign req k
  | none => req.headers

/-- `HttpQueue.post`: enqueue a JSON `POST` (body abstracted to its encoded
bytes) with a `Content-Type` header merged in. -/
def httpQueuePost (q : List Req) (url : String) (body : List Nat)
    (headers : List (String × String)) : List Req :=
  q ++ [⟨"POST", url, headers ++ [("Content-Type", "application/json")], body, none⟩]

/-- The consumer's phase within one iteration of `run_queue`: waiting at
`next()`, request issued and response pending, or sleeping after a response
that completed at `tdone`. -/
inductive QPhase
  | idle
  | inflight (r : Req)
  | sleeping (r : Req) (tdone : Rat)
deriving DecidableEq

/-- The queue, the consumer phase, the clock, and event histories: requests
popped by `done`, all requests ever `put`, and the timed start / completion
events of the HTTP calls. -/
structure QState where
  queue : List Req
  phase : QPhase
  now : Rat
  popped : List Req
  enqueued : List Req
  starts : List (Req × Rat)
  completes : List (Req × Rat)
deriving DecidableEq

def qInit : QState := ⟨[], .idle, 0, [], [], [], []⟩

/-- Small-step semantics of the producer calls and the `run_queue` consumer:
time may pass; a producer may `put` at any moment; the idle consumer peeks the
head and issues it; the response completes; and only once a full second has
passed since completion is the head popped (`done`). -/
inductive QStep : QState → QState → Prop
  | tick (s : QState) (d : Rat) (hd : 0 ≤ d) :
      QStep s { s with now := s.now + d }
  | put (s : QState) (r : Req) :
      QStep s { s with queue := s.queue ++ [r], enqueued := s.enqueued ++ [r] }
  | send (s : QState) (r : Req) (h : s.phase = .idle) (hq : s.queue.head? = some r) :
      QStep s { s with phase := .inflight r, starts := s.starts ++ [(r, s.now)] }
  | respond (s : QState) (r : Req) (h : s.phase = .inflight r) :
      QStep s { s with phase := .sleeping r s.now,
                       completes := s.completes ++ [(r, s.now)] }
  | wake (s : QState) (r : Req) (td : Rat) (h : s.phase = .sleeping r td)
      (ht : td + 1 ≤ s.now) :
      QStep s { s with phase := .idle, queue := s.queue.tail,
                       popped := s.popped ++ [r] }

/-- States reachable from the initial queue state. -/
def QReach (s : QState) : Prop := Relation.ReflTransGen QStep qInit s

/-- At least one second separates the completion of each request from the
start of the next one. -/
def gapOk (s : QState) : Prop :=
  ∀ i c st, s.completes.get? i = some c → s.starts.get? (i + 1) = some st →
    c.2 + 1 ≤ st.2

/-- The request the consumer currently holds (peeked but not yet popped). -/
def phaseReqs : QPhase → List Req
  | .idle => []
  | .inflight r => [r]
  | .sleeping r _ => [r]

/-- The inductive invariant of the queue system: the held request is the queue
head (the peek-then-done discipline), the popped requests followed by the
current queue are exactly the enqueued ones, the issued requests are the
popped ones plus the held one, the start/completion counts agree with the
phase, an idle consumer has let a full second pass since the last completion,
and the pacing gap holds for the event histories. -/
def QInv (s : QState) : Prop :=
  (∀ r, s.phase = QPhase.inflight r → s.queue.head? = some r)
  ∧ (∀ r td, s.phase = QPhase.sleeping r td →
      s.queue.head? = some r ∧ td ≤ s.now)
  ∧ s.popped ++ s.queue = s.enqueued
  ∧ s.starts.map Prod.fst = s.popped ++ phaseReqs s.phase
  ∧ (s.phase = QPhase.idle → s.starts.length = s.completes.length
      ∧ ∀ q t, s.completes.getLast? = some (q, t) → t + 1 ≤ s.now)
  ∧ (∀ r, s.phase = QPhase.inflight r →
      s.starts.length = s.completes.length + 1)
  ∧ (∀ r td, s.phase = QPhase.sleeping r td →
      s.starts.length = s.completes.length ∧ s.completes.getLast? = some (r, td))
  ∧ gapOk s

/-! ### GitHub client (`github.py`)

JSON values are abstracted to `Nat`; a reducer is an identity (`Nat`) plus the
globally indexed function family `red`, mirroring Python function-object
identity as the cache key component. -/

structure GitHubCfg where
  url : String
  token : String
  userAgent : String
deriving DecidableEq

def githubHeaders (c : GitHubCfg) : List (String × String) :=
  [("User-Agent", c.userAgent), ("Authorization", "token " ++ c.token)]

/-- The world a `GitHub.post` acts on: the outbound `HttpQueue` contents and
the log of HTTP calls issued immediately on the client session. -/
structure World where
  queue : List Req
  issued : List (String × String × List (String × String) × Nat)
deriving DecidableEq

/-- `aiohttp` session POST: the call happens immediately. -/
def sessionPost (w : World) (url : String) (headers : List (String × String))
    (body : Nat) : World :=
  { w with issued := w.issued ++ [("POST", url, headers, body)] }

/-- `GitHub.post`: `session.post(self.qualify(resource), json=body,
headers=self.headers)`. -/
def githubPost (c : GitHubCfg) (w : World) (resource : String) (body : Nat) : World :=
  sessionPost w (c.url ++ resource) (githubHeaders c) body

/-- A conditional-GET response as `GitHub.get` observes it. -/
structure Resp where
  status : Nat
  etag : Option String
  lastModified : Option String
  body : Nat
deriving DecidableEq

/-- The fresh validator map read back from the response headers
(`etag → if-none-match`, `last-modified → if-modified-since`). -/
def respConditions (r : Resp) : List (String × String) :=
  (match r.etag with | some v => [("if-none-match", v)] | none => []) ++
  (match r.lastModified with | some v => [("if-modified-since", v)] | none => [])

structure CacheEntry where
  conditions : List (String × String)
  value : Nat
deriving DecidableEq

abbrev GKey := String × Nat

/-- The cache transition and result of `GitHub.get`, given the response the
server returns and the reducer family `red` (the reducer with identity `rid`
applied to a parsed body `j` yields `red rid j`). -/
def githubGet (red : Nat → Nat → Nat) (cache : List (GKey × CacheEntry))
    (resource : String) (rid : Nat) (resp : Resp) :
    List (GKey × CacheEntry) × Option Nat :=
  match lruGet cache (resource, rid) with
  | some e =>
    if resp.status = 304 then (lruAdd 128 cache (resource, rid) e, some e.value)
    else if resp.status / 100 = 2 then
      (lruAdd 128 cache (resource, rid) ⟨respConditions resp, red rid resp.body⟩,
        some (red rid resp.body))
    else (cache, none)
  | none =>
    if resp.status / 100 = 2 then
      (lruAdd 128 cache (resource, rid) ⟨respConditions resp, red rid resp.body⟩,
        some (red rid resp.body))
    else (cache, none)

/-! ### S3 credential lookup (`s3.py`)

The key directory is an association list from filename to file content; a
hostname is its list of dot-separated labels (`'.' in hostname` iff the list
has at least two labels, and `hostname.partition('.')` drops the head). -/

def lookupFile : List (String × String) → String → Option String
  | [], _ => none
  | (n, c) :: rest, name => if n = name then some c else lookupFile rest name

def isSpace (c : Char) : Bool :=
  c == ' ' || c == '\t' || c == '\n' || c == '\r' || c == '\x0b' || c == '\x0c'

/-- Tokenisation loop of Python `str.split()`.  The `fuel` argument only
forces structural termination: at least one character is consumed per step, so
any fuel above the input length yields the exact whitespace-separated
tokens. -/
def splitWsAux (fuel : Nat) (l : List Char) : List String :=
  match fuel with
  | 0 => []
  | fuel + 1 =>
    match l with
    | [] => []
    | c :: rest =>
      if isSpace c then splitWsAux fuel rest
      else String.mk (c :: rest.takeWhile (fun x => !isSpace x))
        :: splitWsAux fuel (rest.dropWhile (fun x => !isSpace x))

/-- Python `str.split()`: split on runs of whitespace, dropping empty pieces. -/
def splitWs (l : List Char) : List String := splitWsAux (l.length + 1) l

/-- Read one candidate key file: `access, secret = fp.read().split()`; a
missing file and a file that does not split into exactly two tokens both yield
`none` (the latter after a warning). -/
def readKey (dir : List (String × String)) (name : String) : Option S3Key :=
  match lookupFile dir name with
  | none => none
  | some content =>
    match splitWs content.data with
    | [a, b] => some ⟨a, b⟩
    | _ => none

def joinDots (labels : List String) : String := String.intercalate "." labels

/-- `get_key`: walk progressively shorter dotted suffixes of the hostname,
stopping at the first readable well-formed key file, or when the remaining
name has no dot left. -/
def get_key (dir : List (String × String)) : List String → Option S3Key
  | [] => none
  | [_] => none
  | a :: b :: rest =>
    match readKey dir (joinDots (a :: b :: rest)) with
    | some k => some k
    | none => get_key dir (b :: rest)

/-- The dotted suffixes of a hostname that still contain a dot, longest
first. -/
def dottedSuffixes : List String → List (List String)
  | [] => []
  | [_] => []
  | a :: b :: rest => (a :: b :: rest) :: dottedSuffixes (b :: rest)

/-! ### Predicates used by the statements -/

/-- A run of streaming operations: no (re-)`start` and no finalizing write. -/
def StreamOps (ops : List UpOp) : Prop :=
  ∀ op ∈ ops, (∀ cps, op ≠ UpOp.start cps) ∧ ∀ d, op ≠ UpOp.write d true

/-- No bundled static asset is named like an auxiliary artifact
`<name>.<suffix>` of the log `fn`. -/
def AssetsOk (fn : List Nat) (assets : List (List Nat × List Nat)) : Prop :=
  ∀ p ∈ assets, ∀ s : List Nat, p.1 ≠ fn ++ 46 :: s

/-- Every artifact `<fn>.<s>` present in the store has its suffix recorded in
the uploader's `suffixes` set. -/
def SuffixInv (fn : List Nat) (st : UpState) : Prop :=
  ∀ s : List Nat, (storeGet st.store (fn ++ 46 :: s)).isSome = true → s ∈ st.suffixes

/-- A byte string that is a concatenation of UTF-8 encoded code points, i.e.
one whose artifact boundaries never split a code point. -/
def IsEnc (b : List Nat) : Prop := ∃ cs : List Nat, b = encAll cs

/-- Every block of the uploader (pending buffer and all chunk blocks) is a
whole-code-point byte string. -/
def BlocksEnc (st : UpState) : Prop :=
  IsEnc st.pending ∧ ∀ c ∈ st.chunks, ∀ blk ∈ c, IsEnc blk

/-- A 600 kB write, as in the four-flush scenario. -/
def blk600 : List Nat := List.replicate 600000 65

/-- Every artifact stored under a `<fn>.<s>` name is a whole-code-point byte
string. -/
def StoreEnc (fn : List Nat) (st : UpState) : Prop :=
  ∀ s v, storeGet st.store (fn ++ 46 :: s) = some v → IsEnc v

/-- The last two chunks of the list never hold the same number of blocks. -/
def LastTwoOk (cs : List (List (List Nat))) : Prop :=
  ∀ a b t, cs.reverse = a :: b :: t → a.length ≠ b.length

/-- The chunk list `send_pending` leaves behind. -/
def mergedChunks (st : UpState) : List (List (List Nat)) :=
  mergeChunks (st.chunks ++ [[st.pending]])

/-- The `chunk_sizes` list `send_pending` computes. -/
def mergedSizes (st : UpState) : List Nat := (mergedChunks st).map chunkSize

/-- The `<start>-<end>` suffix of the range artifact `send_pending` writes. -/
def lastSfx (st : UpState) : List Nat :=
  decBytes (mergedSizes st).dropLast.sum
    ++ 45 :: decBytes ((mergedSizes st).dropLast.sum + (mergedSizes st).getLastD 0)

/-- The joint suffix-tracking invariant: every stored `<fn>.<s>` artifact has
`s` recorded in `suffixes`, and the seed suffix `chunks` is recorded. -/
def UpInv (fn : List Nat) (st : UpState) : Prop :=
  SuffixInv fn st ∧ chunksSfx ∈ st.suffixes

/-! ### Lemmas about the LRU cache -/

theorem evict_length {K V : Type} [DecidableEq K] [DecidableEq V]
    (m : Nat) (l : List (K × V)) : (evict m l).length ≤ m := by
  induction l with
  | nil => simp [evict]
  | cons x t ih =>
    rw [evict]
    split
    · exact ih
    · omega

theorem evict_sublist {K V : Type} [DecidableEq K] [DecidableEq V]
    (m : Nat) (l : List (K × V)) : (evict m l).Sublist l := by
  induction l with
  | nil => simp [evict]
  | cons x t ih =>
    rw [evict]
    split
    · exact ih.trans (List.sublist_cons_self x t)
    · exact List.Sublist.refl _

theorem evict_eq_drop {K V : Type} [DecidableEq K] [DecidableEq V]
    (m : Nat) (l : List (K × V)) : ∃ n, n ≤ l.length ∧ evict m l = l.drop n := by
  induction l with
  | nil => exact ⟨0, by simp [evict]⟩
  | cons x t ih =>
    rw [evict]
    split
    · obtain ⟨n, hn, he⟩ := ih
      exact ⟨n + 1, by simpa using hn, by simpa using he⟩
    · exact ⟨0, by simp⟩

theorem evict_ne_nil {K V : Type} [DecidableEq K] [DecidableEq V]
    (m : Nat) (l : List (K × V)) (hm : 0 < m) (hl : l ≠ []) : evict m l ≠ [] := by
  induction l with
  | nil => exact absurd rfl hl
  | cons x t ih =>
    rw [evict]
    split
    · rename_i hlen
      apply ih
      intro ht
      subst ht
      simp at hlen
      omega
    · simp

theorem evict_getLast? {K V : Type} [DecidableEq K] [DecidableEq V]
    (m : Nat) (l : List (K × V)) (hm : 0 < m) (hl : l ≠ []) :
    (evict m l).getLast? = l.getLast? := by
  induction l with
  | nil => exact absurd rfl hl
  | cons x t ih =>
    rw [evict]
    split
    · rename_i hlen
      have ht : t ≠ [] := by
        intro h; subst h; simp at hlen; omega
      obtain ⟨y, t2, rfl⟩ := List.exists_cons_of_ne_nil ht
      rw [ih ht, List.getLast?_cons_cons]
    · rfl

theorem keys_filter_not_mem {K V : Type} [DecidableEq K] [DecidableEq V]
    (c : List (K × V)) (k : K) :
    k ∉ (c.filter (fun p => p.1 ≠ k)).map Prod.fst := by
  intro hmem
  obtain ⟨p, hp, hfst⟩ := List.mem_map.mp hmem
  have := (List.mem_filter.mp hp).2
  simp only [ne_eq, decide_not, Bool.not_eq_true', decide_eq_false_iff_not] at this
  exact this hfst

theorem lruGet_append_last {K V : Type} [DecidableEq K] [DecidableEq V]
    (xs : List (K × V)) (k : K) (v : V) (h : ∀ p ∈ xs, p.1 ≠ k) :
    lruGet (xs ++ [(k, v)]) k = some v := by
  induction xs with
  | nil => simp [lruGet]
  | cons x t ih =>
    have hx := h x (by simp)
    simp only [List.cons_append, lruGet, if_neg hx]
    exact ih fun p hp => h p (by simp [hp])

theorem lruGet_of_mem {K V : Type} [DecidableEq K] [DecidableEq V]
    (l : List (K × V)) (hnd : (l.map Prod.fst).Nodup) (k : K) (v : V)
    (hm : (k, v) ∈ l) : lruGet l k = some v := by
  induction l with
  | nil => cases hm
  | cons x t ih =>
    obtain ⟨k1, v1⟩ := x
    simp only [List.map_cons, List.nodup_cons] at hnd
    rcases List.mem_cons.mp hm with heq | htail
    · rw [Prod.mk.injEq] at heq
      simp [lruGet, heq.1, heq.2]
    · have hk1 : k1 ≠ k := by
        intro h
        apply hnd.1
        rw [h]
        exact List.mem_map.mpr ⟨(k, v), htail, rfl⟩
      simp only [lruGet, if_neg hk1]
      exact ih hnd.2 htail

theorem lruAdd_getLast? {K V : Type} [DecidableEq K] [DecidableEq V]
    (m : Nat) (c : List (K × V)) (k : K) (v : V) (hm : 0 < m) :
    (lruAdd m c k v).getLast? = some (k, v) := by
  unfold lruAdd
  rw [evict_getLast? m _ hm (by simp)]
  simp

theorem lruAdd_length {K V : Type} [DecidableEq K] [DecidableEq V]
    (m : Nat) (c : List (K × V)) (k : K) (v : V) : (lruAdd m c k v).length ≤ m :=
  evict_length m _

theorem lruAdd_count {K V : Type} [DecidableEq K] [DecidableEq V]
    (m : Nat) (c : List (K × V)) (k : K) (v : V) (hm : 0 < m) :
    ((lruAdd m c k v).map Prod.fst).count k = 1 := by
  have hsub : ((lruAdd m c k v).map Prod.fst).Sublist
      ((c.filter (fun p => p.1 ≠ k) ++ [(k, v)]).map Prod.fst) :=
    (evict_sublist m _).map Prod.fst
  have hle := hsub.count_le k
  have hc2 : ((c.filter (fun p => p.1 ≠ k) ++ [(k, v)]).map Prod.fst).count k = 1 := by
    have h0 : ((c.filter (fun p => p.1 ≠ k)).map Prod.fst).count k = 0 :=
      List.count_eq_zero.mpr (keys_filter_not_mem c k)
    rw [List.map_append, List.count_append, h0]
    simp
  have hmem : (k, v) ∈ lruAdd m c k v := by
    have hlast := lruAdd_getLast? m c k v hm
    obtain ⟨hne, heq⟩ := List.mem_getLast?_eq_getLast (x := (k, v)) (by rw [hlast]; rfl)
    rw [heq]
    exact List.getLast_mem hne
  have hge : 1 ≤ ((lruAdd m c k v).map Prod.fst).count k := by
    have hk : k ∈ (lruAdd m c k v).map Prod.fst := List.mem_map.mpr ⟨(k, v), hmem, rfl⟩
    exact List.count_pos_iff.mpr hk
  omega

theorem lruAdd_lruGet {K V : Type} [DecidableEq K] [DecidableEq V]
    (m : Nat) (c : List (K × V)) (k : K) (v : V) (hm : 0 < m) :
    lruGet (lruAdd m c k v) k = some v := by
  obtain ⟨n, hn, he⟩ := evict_eq_drop m (c.filter (fun p => p.1 ≠ k) ++ [(k, v)])
  have hne := evict_ne_nil m (c.filter (fun p => p.1 ≠ k) ++ [(k, v)]) hm (by simp)
  unfold lruAdd at hne ⊢
  rw [he] at hne ⊢
  have hn1 : n ≤ (c.filter (fun p => p.1 ≠ k)).length := by
    by_contra hlt
    push_neg at hlt
    have : n = (c.filter (fun p => p.1 ≠ k)).length + 1 := by
      simp only [List.length_append, List.length_cons, List.length_nil] at hn
      omega
    rw [this] at hne
    simp at hne
  rw [List.drop_append_of_le_length hn1]
  apply lruGet_append_last
  intro p hp
  have hp2 := List.mem_of_mem_drop hp
  have := (List.mem_filter.mp hp2).2
  simpa using this

theorem lruAdd_keys_nodup {K V : Type} [DecidableEq K] [DecidableEq V]
    (m : Nat) (c : List (K × V)) (k : K) (v : V)
    (h : (c.map Prod.fst).Nodup) : ((lruAdd m c k v).map Prod.fst).Nodup := by
  have hsub : ((lruAdd m c k v).map Prod.fst).Sublist
      ((c.filter (fun p => p.1 ≠ k) ++ [(k, v)]).map Prod.fst) :=
    (evict_sublist m _).map Prod.fst
  apply List.Nodup.sublist hsub
  rw [List.map_append]
  apply List.Nodup.append
  · exact ((List.filter_sublist c).map Prod.fst).nodup h
  · simp
  · intro a ha hb
    simp only [List.map_cons, List.map_nil, List.mem_singleton] at hb
    rw [hb] at ha
    exact keys_filter_not_mem c k ha

theorem lruRun_keys_nodup {K V : Type} [DecidableEq K] [DecidableEq V]
    (m : Nat) (ops : List (LruOp K V)) : ((lruRun m ops).map Prod.fst).Nodup := by
  suffices h : ∀ (st : List (K × V)), (st.map Prod.fst).Nodup →
      ((ops.foldl (lruStep m) st).map Prod.fst).Nodup from h [] (by simp)
  induction ops with
  | nil => intro st hst; exact hst
  | cons op rest ih =>
    intro st hst
    cases op with
    | add k v => exact ih _ (lruAdd_keys_nodup m st k v hst)
    | get k => exact ih _ hst

theorem lruRun_length {K V : Type} [DecidableEq K] [DecidableEq V]
    (m : Nat) (ops : List (LruOp K V)) : (lruRun m ops).length ≤ m := by
  suffices h : ∀ (st : List (K × V)), st.length ≤ m →
      (ops.foldl (lruStep m) st).length ≤ m from h [] (by simp)
  induction ops with
  | nil => intro st hst; exact hst
  | cons op rest ih =>
    intro st hst
    cases op with
    | add k v => exact ih _ (lruAdd_length m st k v)
    | get k => exact ih _ hst

/-! ### C4: LRU cache invariants -/

/-- C4: for every sequence of `LRUCache.add` / `LRUCache.get` operations the
cache size never exceeds `max_items`; immediately after `add(k, v)` (with a
positive capacity) `k` is the most-recently-inserted key, any prior binding of
`k` has been removed (its key occurs exactly once), the size bound still
holds, and `k` maps to `v`; and `get(k)` returns the stored value without
changing the insertion order of any key. -/
theorem lruCache_invariants {K V : Type} [DecidableEq K] [DecidableEq V]
    (m : Nat) (ops : List (LruOp K V)) :
    (lruRun m ops).length ≤ m
    ∧ (∀ k v, 0 < m →
        ((lruAdd m (lruRun m ops) k v).map Prod.fst).getLast? = some k
        ∧ ((lruAdd m (lruRun m ops) k v).map Prod.fst).count k = 1
        ∧ (lruAdd m (lruRun m ops) k v).length ≤ m
        ∧ lruGet (lruAdd m (lruRun m ops) k v) k = some v)
    ∧ (∀ k, lruRun m (ops ++ [LruOp.get k]) = lruRun m ops)
    ∧ (∀ k v, (k, v) ∈ lruRun m ops → lruGet (lruRun m ops) k = some v) := by
  refine ⟨lruRun_length m ops, ?_, ?_, ?_⟩
  · intro k v hm
    refine ⟨?_, lruAdd_count m _ k v hm, lruAdd_length m _ k v, lruAdd_lruGet m _ k v hm⟩
    rw [List.getLast?_map, lruAdd_getLast? m _ k v hm]
    rfl
  · intro k
    simp [lruRun, List.foldl_append, lruStep]
  · intro k v hmem
    exact lruGet_of_mem _ (lruRun_keys_nodup m ops) k v hmem

theorem lruCache_invariants_witness :
    (0 : Nat) < 2
    ∧ ((lruAdd 2 (lruRun 2 [LruOp.add 1 10, LruOp.add 2 20, LruOp.add 3 30]) 1 99).map
        Prod.fst).getLast? = some 1 :=
  ⟨by decide,
    ((lruCache_invariants 2 [LruOp.add 1 10, LruOp.add 2 20, LruOp.add 3 30]).2.1 1 99
      (by decide)).1⟩

/-! ### C7: GitHub.post is an immediate session call -/

/-- C7 counterexample: `GitHub.post` does not enqueue anything on the
outbound HttpQueue; starting from an empty world, after one `post` the queue
is still empty and exactly one immediate session request has been issued. -/
theorem github_post_counterexample :
    (githubPost ⟨"https://api.github.com/", "tok", "bots"⟩ ⟨[], []⟩
      "repos/x/statuses/y" 7).queue = []
    ∧ (githubPost ⟨"https://api.github.com/", "tok", "bots"⟩ ⟨[], []⟩
      "repos/x/statuses/y" 7).issued.length = 1 :=
  ⟨rfl, rfl⟩

/-- C7 amended: every call to `GitHub.post(resource, body)` performs an
immediate HTTP POST on the client session targeting `url + resource` with the
`User-Agent` and bearer-token headers, leaving the HttpQueue untouched. -/
theorem github_post_immediate (c : GitHubCfg) (w : World) (resource : String)
    (body : Nat) :
    (githubPost c w resource body).queue = w.queue
    ∧ (githubPost c w resource body).issued
        = w.issued ++ [("POST", c.url ++ resource,
            [("User-Agent", c.userAgent), ("Authorization", "token " ++ c.token)], body)] :=
  ⟨rfl, rfl⟩

/-! ### C6: conditional-GET cache behaviour -/

/-- C6: for a conditional GET keyed by `(resource, reducer)`: on a 304 with an
existing cache entry, the same entry is re-inserted (ending up in the
most-recent position), its cached value is returned, and the result does not
depend on the reducer (it is not re-run); on any 2xx, the reducer value is
returned and `(validators, value)` is inserted under the key at the
most-recent position; on any other status the sentinel `none` is returned and
the cache is unchanged. -/
theorem github_get_cache_cases (red red2 : Nat → Nat → Nat)
    (cache : List (GKey × CacheEntry)) (resource : String) (rid : Nat) (resp : Resp) :
    (∀ e, lruGet cache (resource, rid) = some e → resp.status = 304 →
        (githubGet red cache resource rid resp).2 = some e.value
        ∧ lruGet (githubGet red cache resource rid resp).1 (resource, rid) = some e
        ∧ ((githubGet red cache resource rid resp).1.map Prod.fst).getLast?
            = some (resource, rid)
        ∧ (githubGet red cache resource rid resp).2
            = (githubGet red2 cache resource rid resp).2)
    ∧ (resp.status / 100 = 2 →
        (githubGet red cache resource rid resp).2 = some (red rid resp.body)
        ∧ lruGet (githubGet red cache resource rid resp).1 (resource, rid)
            = some ⟨respConditions resp, red rid resp.body⟩
        ∧ ((githubGet red cache resource rid resp).1.map Prod.fst).getLast?
            = some (resource, rid))
    ∧ ((∀ e, lruGet cache (resource, rid) = some e → resp.status ≠ 304) →
        resp.status / 100 ≠ 2 →
        githubGet red cache resource rid resp = (cache, none)) := by
  refine ⟨?_, ?_, ?_⟩
  · intro e he h304
    have h1 : githubGet red cache resource rid resp
        = (lruAdd 128 cache (resource, rid) e, some e.value) := by
      simp only [githubGet, he, if_pos h304]
    have h2 : githubGet red2 cache resource rid resp
        = (lruAdd 128 cache (resource, rid) e, some e.value) := by
      simp only [githubGet, he, if_pos h304]
    rw [h1, h2]
    refine ⟨rfl, lruAdd_lruGet 128 cache (resource, rid) e (by norm_num), ?_, rfl⟩
    rw [List.getLast?_map, lruAdd_getLast? 128 cache (resource, rid) e (by norm_num)]
    rfl
  · intro h2xx
    have h304 : resp.status ≠ 304 := by
      intro h
      rw [h] at h2xx
      norm_num at h2xx
    have h1 : githubGet red cache resource rid resp
        = (lruAdd 128 cache (resource, rid) ⟨respConditions resp, red rid resp.body⟩,
            some (red rid resp.body)) := by
      cases he : lruGet cache (resource, rid) with
      | none => simp only [githubGet, he, if_pos h2xx]
      | some e => simp only [githubGet, he, if_neg h304, if_pos h2xx]
    rw [h1]
    refine ⟨rfl, lruAdd_lruGet 128 cache (resource, rid) _ (by norm_num), ?_⟩
    rw [List.getLast?_map, lruAdd_getLast? 128 cache (resource, rid) _ (by norm_num)]
    rfl
  · intro hno h2xx
    cases he : lruGet cache (resource, rid) with
    | none => simp only [githubGet, he, if_neg h2xx]
    | some e => simp only [githubGet, he, if_neg (hno e he), if_neg h2xx]

/-! ### Lemmas about stores, artifact names and digit rendering -/

theorem storeGet_write_self (st : List (List Nat × List Nat)) (k v : List Nat) :
    storeGet (storeWrite st k v) k = some v := by
  simp [storeWrite, storeGet]

theorem storeGet_write_ne (st : List (List Nat × List Nat)) (k v q : List Nat)
    (h : k ≠ q) : storeGet (storeWrite st k v) q = storeGet st q := by
  simp [storeWrite, storeGet, h]

theorem storeGet_delete (st : List (List Nat × List Nat)) (names : List (List Nat))
    (key : List Nat) :
    storeGet (storeDelete st names) key
      = if key ∈ names then none else storeGet st key := by
  induction st with
  | nil => simp only [storeDelete, List.filter_nil, storeGet]; split <;> rfl
  | cons p rest ih =>
    obtain ⟨k, v⟩ := p
    by_cases hk : k ∈ names
    · have hdel : storeDelete ((k, v) :: rest) names = storeDelete rest names := by
        simp [storeDelete, hk]
      rw [hdel, ih]
      by_cases hq : key ∈ names
      · simp [hq]
      · have hkq : k ≠ key := fun h => hq (h ▸ hk)
        simp [storeGet, hq, hkq]
    · have hdel : storeDelete ((k, v) :: rest) names = (k, v) :: storeDelete rest names := by
        simp [storeDelete, hk]
      rw [hdel]
      by_cases hkq : k = key
      · subst hkq
        simp [storeGet, hk]
      · simp only [storeGet, if_neg hkq]
        exact ih

theorem fn_ne_dotted (fn s : List Nat) : fn ≠ fn ++ 46 :: s := by
  intro h
  have := congrArg List.length h
  simp at this

theorem dotted_inj (fn s t : List Nat) (h : fn ++ 46 :: s = fn ++ 46 :: t) : s = t := by
  have h2 := List.append_cancel_left h
  simpa using h2

theorem digitsAux_mem (fuel : Nat) : ∀ (n : Nat) (acc : List Nat),
    ∀ x ∈ digitsAux fuel n acc, (48 ≤ x ∧ x ≤ 57) ∨ x ∈ acc := by
  induction fuel with
  | zero => exact fun n acc x hx => Or.inr hx
  | succ fuel ih =>
    intro n acc x hx
    rw [digitsAux] at hx
    split at hx
    · rcases List.mem_cons.mp hx with h | h
      · left; omega
      · right; exact h
    · rcases ih (n / 10) _ x hx with h | h
      · left; exact h
      · rcases List.mem_cons.mp h with h2 | h2
        · have := Nat.mod_lt n (show 0 < 10 by omega)
          left; omega
        · right; exact h2

theorem digitsAux_ne_nil (fuel : Nat) : ∀ (n : Nat) (acc : List Nat),
    (fuel = 0 → acc ≠ []) → digitsAux fuel n acc ≠ [] := by
  induction fuel with
  | zero => exact fun n acc h => h rfl
  | succ fuel ih =>
    intro n acc _
    rw [digitsAux]
    split
    · simp
    · exact ih (n / 10) _ (fun _ => by simp)

theorem decBytes_mem (n x : Nat) (hx : x ∈ decBytes n) : 48 ≤ x ∧ x ≤ 57 := by
  rcases digitsAux_mem (n + 1) n [] x hx with h | h
  · exact h
  · cases h

theorem decBytes_ne_nil (n : Nat) : decBytes n ≠ [] :=
  digitsAux_ne_nil (n + 1) n [] (by simp)

theorem lastSfx_ne_chunksSfx (st : UpState) : lastSfx st ≠ chunksSfx := by
  unfold lastSfx chunksSfx
  intro h
  obtain ⟨d, rest, hd⟩ := List.exists_cons_of_ne_nil
    (decBytes_ne_nil (mergedSizes st).dropLast.sum)
  rw [hd, List.cons_append] at h
  have hdig := decBytes_mem (mergedSizes st).dropLast.sum d
    (by rw [hd]; exact List.mem_cons_self d rest)
  have : d = 99 := by injection h
  omega

/-! ### Lemmas about UTF-8 encoded byte strings -/

theorem encAll_cons (c : Nat) (cs : List Nat) :
    encAll (c :: cs) = encCp c ++ encAll cs := by
  simp [encAll]

theorem encAll_append (x y : List Nat) : encAll (x ++ y) = encAll x ++ encAll y := by
  simp [encAll]

theorem IsEnc_nil : IsEnc [] := ⟨[], rfl⟩

theorem IsEnc_encAll (cs : List Nat) : IsEnc (encAll cs) := ⟨cs, rfl⟩

theorem IsEnc.append {a b : List Nat} (ha : IsEnc a) (hb : IsEnc b) :
    IsEnc (a ++ b) := by
  obtain ⟨x, rfl⟩ := ha
  obtain ⟨y, rfl⟩ := hb
  exact ⟨x ++ y, (encAll_append x y).symm⟩

theorem IsEnc_flatten (L : List (List Nat)) (h : ∀ b ∈ L, IsEnc b) :
    IsEnc L.flatten := by
  induction L with
  | nil => exact IsEnc_nil
  | cons x t ih =>
    rw [List.flatten_cons]
    exact (h x (by simp)).append (ih fun b hb => h b (by simp [hb]))

theorem encAll_ascii (bs : List Nat) (h : ∀ x ∈ bs, x ≤ 127) : encAll bs = bs := by
  induction bs with
  | nil => rfl
  | cons x t ih =>
    rw [encAll_cons, encCp, if_pos (h x (by simp))]
    rw [ih fun y hy => h y (by simp [hy])]
    rfl

theorem joinComma_mem (L : List (List Nat)) (x : Nat) (hx : x ∈ joinComma L) :
    x = 44 ∨ x = 32 ∨ ∃ l ∈ L, x ∈ l := by
  induction L with
  | nil => cases hx
  | cons a t ih =>
    cases t with
    | nil =>
      right; right
      exact ⟨a, by simp, hx⟩
    | cons b rest =>
      rw [joinComma] at hx
      rcases List.mem_append.mp hx with h | h
      · right; right; exact ⟨a, by simp, h⟩
      · rcases List.mem_cons.mp h with h2 | h2
        · left; exact h2
        rcases List.mem_cons.mp h2 with h3 | h3
        · right; left; exact h3
        · rcases ih h3 with h4 | h4 | ⟨l, hl, hxl⟩
          · left; exact h4
          · right; left; exact h4
          · right; right; exact ⟨l, by simp [hl], hxl⟩

theorem jsonBytes_ascii (l : List Nat) : ∀ x ∈ jsonBytes l, x ≤ 127 := by
  intro x hx
  unfold jsonBytes at hx
  rcases List.mem_cons.mp hx with h | h
  · omega
  rcases List.mem_append.mp h with h2 | h2
  · rcases joinComma_mem _ x h2 with h3 | h3 | ⟨bl, hbl, hxbl⟩
    · omega
    · omega
    · obtain ⟨n, _, hn⟩ := List.mem_map.mp hbl
      have := decBytes_mem n x (hn ▸ hxbl)
      omega
  · have : x = 93 := by simpa using h2
    omega

theorem IsEnc_jsonBytes (l : List Nat) : IsEnc (jsonBytes l) :=
  ⟨jsonBytes l, (encAll_ascii _ (jsonBytes_ascii l)).symm⟩

/-! ### Lemmas about the 2048 merge loop -/

theorem mergeStep_lastTwo (x : List (List Nat)) (L : List (List (List Nat))) :
    ∀ a b t, mergeStep x L = a :: b :: t → a.length ≠ b.length := by
  induction x, L using mergeStep.induct with
  | case1 z =>
    intro a b t h
    rw [mergeStep] at h
    cases h
  | case2 z y rest heq ih =>
    intro a b t h
    rw [mergeStep, if_pos heq] at h
    exact ih a b t h
  | case3 z y rest hne =>
    intro a b t h
    rw [mergeStep, if_neg hne] at h
    obtain ⟨rfl, h2⟩ := List.cons.inj h
    obtain ⟨rfl, _⟩ := List.cons.inj h2
    exact hne

theorem mergeRev_lastTwo (L : List (List (List Nat))) :
    ∀ a b t, mergeRev L = a :: b :: t → a.length ≠ b.length := by
  cases L with
  | nil =>
    intro a b t h
    rw [mergeRev] at h
    cases h
  | cons x rest => exact mergeStep_lastTwo x rest

theorem mergeStep_ne_nil (x : List (List Nat)) (L : List (List (List Nat))) :
    mergeStep x L ≠ [] := by
  induction x, L using mergeStep.induct with
  | case1 z => rw [mergeStep]; simp
  | case2 z y rest heq ih => rw [mergeStep, if_pos heq]; exact ih
  | case3 z y rest hne => rw [mergeStep, if_neg hne]; simp

theorem mergeRev_ne_nil (L : List (List (List Nat))) (h : L ≠ []) :
    mergeRev L ≠ [] := by
  cases L with
  | nil => exact absurd rfl h
  | cons x rest => exact mergeStep_ne_nil x rest

theorem mergeStep_blocks (x : List (List Nat)) (L : List (List (List Nat))) :
    ∀ c ∈ mergeStep x L, ∀ blk ∈ c, ∃ c2 ∈ x :: L, blk ∈ c2 := by
  induction x, L using mergeStep.induct with
  | case1 z =>
    intro c hc blk hblk
    rw [mergeStep] at hc
    exact ⟨c, by simpa using hc, hblk⟩
  | case2 z y rest heq ih =>
    intro c hc blk hblk
    rw [mergeStep, if_pos heq] at hc
    obtain ⟨c2, hc2, hblk2⟩ := ih c hc blk hblk
    rcases List.mem_cons.mp hc2 with h | h
    · subst h
      rcases List.mem_append.mp hblk2 with h2 | h2
      · exact ⟨y, by simp, h2⟩
      · exact ⟨z, by simp, h2⟩
    · exact ⟨c2, by simp [h], hblk2⟩
  | case3 z y rest hne =>
    intro c hc blk hblk
    rw [mergeStep, if_neg hne] at hc
    exact ⟨c, hc, hblk⟩

theorem mergeRev_blocks (L : List (List (List Nat))) :
    ∀ c ∈ mergeRev L, ∀ blk ∈ c, ∃ c2 ∈ L, blk ∈ c2 := by
  cases L with
  | nil =>
    intro c hc
    rw [mergeRev] at hc
    cases hc
  | cons x rest => exact mergeStep_blocks x rest

theorem mergeStep_flatten (x : List (List Nat)) (L : List (List (List Nat))) :
    ((mergeStep x L).reverse.map List.flatten).flatten
      = ((x :: L).reverse.map List.flatten).flatten := by
  induction x, L using mergeStep.induct with
  | case1 z => rw [mergeStep]
  | case2 z y rest heq ih =>
    rw [mergeStep, if_pos heq, ih]
    simp [List.flatten_append]
  | case3 z y rest hne => rw [mergeStep, if_neg hne]

theorem mergeRev_flatten (L : List (List (List Nat))) :
    ((mergeRev L).reverse.map List.flatten).flatten
      = (L.reverse.map List.flatten).flatten := by
  cases L with
  | nil => rw [mergeRev]
  | cons x rest => exact mergeStep_flatten x rest

theorem chunksFlat_mergeChunks (X : List (List (List Nat))) :
    chunksFlat (mergeChunks X) = chunksFlat X := by
  unfold chunksFlat mergeChunks
  rw [mergeRev_flatten, List.reverse_reverse]

theorem mergeChunks_ne_nil (X : List (List (List Nat))) (h : X ≠ []) :
    mergeChunks X ≠ [] := by
  unfold mergeChunks
  intro hc
  exact mergeRev_ne_nil X.reverse (by simpa using h) (by simpa using hc)

/-! ### Structural lemmas about the uploader operations -/

theorem sendPending_eq (fn : List Nat) (st : UpState) :
    sendPending fn st =
      { st with chunks := mergedChunks st, pending := [], timer := false,
                suffixes := addSfx st.suffixes (lastSfx st),
                store := storeWrite
                    (storeWrite st.store (fn ++ 46 :: lastSfx st)
                      (chunkBytes ((mergedChunks st).getLastD [])))
                    (fn ++ 46 :: chunksSfx) (jsonBytes (mergedSizes st)) } := by
  have hne : ((mergeChunks (st.chunks ++ [[st.pending]])).map chunkSize).isEmpty = false := by
    rw [List.isEmpty_eq_false]
    intro h
    exact mergeChunks_ne_nil (st.chunks ++ [[st.pending]]) (by simp)
      (List.map_eq_nil_iff.mp h)
  simp only [sendPending, hne]
  rfl

theorem scanAssets_fields (assets : List (List Nat × List Nat)) : ∀ (st : UpState),
    (scanAssets st assets).chunks = st.chunks
    ∧ (scanAssets st assets).pending = st.pending
    ∧ (scanAssets st assets).suffixes = st.suffixes
    ∧ (scanAssets st assets).dec = st.dec
    ∧ (scanAssets st assets).timer = st.timer := by
  induction assets with
  | nil => exact fun st => ⟨rfl, rfl, rfl, rfl, rfl⟩
  | cons p rest ih =>
    intro st
    simp only [scanAssets, List.foldl_cons]
    split
    · exact ih st
    · exact ih (indexWrite st p.1 p.2)

theorem writeFinal_eq (fn : List Nat) (st : UpState) :
    writeFinal fn st =
      { chunks := st.chunks,
        pending := st.pending,
        suffixes := st.suffixes,
        dec := st.dec,
        timer := false,
        files := if fn ∈ st.files then st.files else st.files ++ [fn],
        dirty := true,
        store := storeDelete
            (storeWrite st.store fn (chunksFlat st.chunks ++ st.pending))
            (st.suffixes.map (fun s => fn ++ 46 :: s)) } := rfl

theorem writeOp_eq (fn : List Nat) (st : UpState) (data : List Nat) (final : Bool) :
    writeOp fn st data final =
      (if final then writeFinal else writeNF) fn
        { st with pending := st.pending ++ encAll (decode st.dec data final).1,
                  dec := (decode st.dec data final).2 } := by
  cases final <;> rfl

theorem upRun_snoc (fn : List Nat) (assets : List (List Nat × List Nat))
    (ops : List UpOp) (op : UpOp) :
    upRun fn assets (ops ++ [op]) = upStep fn assets (upRun fn assets ops) op := by
  unfold upRun
  rw [List.foldl_append]
  rfl

theorem writeNF_cases (fn : List Nat) (st : UpState) :
    writeNF fn st = sendPending fn st
    ∨ writeNF fn st = { st with timer := true }
    ∨ writeNF fn st = st := by
  unfold writeNF
  split
  · split
    · left; rfl
    · split
      · right; left; rfl
      · right; right; rfl
  · right; right; rfl

/-! ### The last-two-chunks invariant (C3) -/

theorem lastTwoOk_mergeChunks (X : List (List (List Nat))) :
    LastTwoOk (mergeChunks X) := by
  intro a b t h
  rw [mergeChunks, List.reverse_reverse] at h
  exact mergeRev_lastTwo _ a b t h

theorem lastTwoOk_sendPending (fn : List Nat) (st : UpState) :
    LastTwoOk (sendPending fn st).chunks := by
  rw [sendPending_eq]
  exact lastTwoOk_mergeChunks _

theorem lastTwoOk_step (fn : List Nat) (assets : List (List Nat × List Nat))
    (st : UpState) (op : UpOp) (h : LastTwoOk st.chunks) :
    LastTwoOk (upStep fn assets st op).chunks := by
  cases op with
  | start cps =>
    show LastTwoOk (startOp fn assets cps st).chunks
    unfold startOp
    rw [(scanAssets_fields assets _).1]
    exact lastTwoOk_sendPending fn _
  | flush => exact lastTwoOk_sendPending fn st
  | write d final =>
    show LastTwoOk (writeOp fn st d final).chunks
    rw [writeOp_eq]
    cases final with
    | true => rw [if_pos rfl, writeFinal_eq]; exact h
    | false =>
      rw [if_neg Bool.false_ne_true]
      rcases writeNF_cases fn
          { st with pending := st.pending ++ encAll (decode st.dec d false).1,
                    dec := (decode st.dec d false).2 } with hc | hc | hc
        <;> rw [hc]
      · exact lastTwoOk_sendPending fn _
      · exact h
      · exact h

theorem lastTwoOk_upRun (fn : List Nat) (assets : List (List Nat × List Nat))
    (ops : List UpOp) : LastTwoOk (upRun fn assets ops).chunks := by
  suffices h : ∀ (st : UpState), LastTwoOk st.chunks →
      LastTwoOk ((ops.foldl (upStep fn assets) st).chunks) by
    apply h
    intro a b t hr
    simp [upInit] at hr
  induction ops with
  | nil => exact fun st hst => hst
  | cons op rest ih =>
    intro st hst
    exact ih _ (lastTwoOk_step fn assets st op hst)

theorem lastTwoOk_getD (l : List (List (List Nat))) (hok : LastTwoOk l) (i : Nat)
    (hi : i + 1 < l.length) (hl : i + 1 = l.length - 1) :
    (l.getD i []).length ≠ (l.getD (i + 1) []).length := by
  cases hr : l.reverse with
  | nil =>
    have : l = [] := by simpa using congrArg List.reverse hr
    subst this
    simp at hi
  | cons a r1 =>
    cases r1 with
    | nil =>
      have h1 : l = [a] := by simpa using congrArg List.reverse hr
      subst h1
      simp at hi
    | cons b t =>
      have hne := hok a b t hr
      have h2 : l = t.reverse ++ [b, a] := by
        have := congrArg List.reverse hr
        simpa using this
      subst h2
      have hlen : t.reverse.length + 2 = (t.reverse ++ [b, a]).length := by simp
      have hit : i = t.reverse.length := by
        simp only [List.length_append, List.length_cons, List.length_nil] at hl
        omega
      subst hit
      rw [List.getD_eq_getD_get?, List.getD_eq_getD_get?, List.get?_eq_getElem?,
        List.get?_eq_getElem?, List.getElem?_append_right (by omega),
        List.getElem?_append_right (by omega)]
      simp only [Nat.sub_self, Nat.add_sub_cancel_left]
      intro hfalse
      exact hne (by simpa using hfalse.symm)

/-- C3: between any two `ChunkedUploader` operations, for every index
`i < len(chunks) - 1` the block count of `chunks[i]` differs from the block
count of `chunks[i+1]`, or `i+1` is not the last index: the last two chunks
never hold the same number of blocks. -/
theorem chunk_blockcount_invariant (fn : List Nat)
    (assets : List (List Nat × List Nat)) (ops : List UpOp) (i : Nat)
    (hi : i + 1 < (upRun fn assets ops).chunks.length) :
    ((upRun fn assets ops).chunks.getD i []).length
        ≠ ((upRun fn assets ops).chunks.getD (i + 1) []).length
      ∨ i + 1 ≠ (upRun fn assets ops).chunks.length - 1 := by
  by_cases hlast : i + 1 = (upRun fn assets ops).chunks.length - 1
  · exact Or.inl (lastTwoOk_getD _ (lastTwoOk_upRun fn assets ops) i hi hlast)
  · exact Or.inr hlast

theorem chunk_blockcount_invariant_witness :
    0 + 1 < (upRun [108, 111, 103] [] [UpOp.flush, UpOp.flush, UpOp.flush]).chunks.length
    ∧ (((upRun [108, 111, 103] [] [UpOp.flush, UpOp.flush, UpOp.flush]).chunks.getD 0 []).length
          ≠ ((upRun [108, 111, 103] [] [UpOp.flush, UpOp.flush, UpOp.flush]).chunks.getD
              (0 + 1) []).length
        ∨ 0 + 1 ≠ (upRun [108, 111, 103] [] [UpOp.flush, UpOp.flush, UpOp.flush]).chunks.length
            - 1) :=
  ⟨by decide,
    chunk_blockcount_invariant [108, 111, 103] [] [UpOp.flush, UpOp.flush, UpOp.flush] 0
      (by decide)⟩

/-! ### C9: credential lookup over hostname suffixes -/

/-- C9: credential lookup tries the per-host key files for progressively
shorter dotted suffixes of the hostname and returns the first well-formed
match — equivalently, the first non-`none` result of `readKey` along the
dotted suffixes, so a malformed file (one that does not split into exactly two
tokens) is skipped and the walk continues at the next suffix, `none` resulting
when no file matches; and a request carrying no credential is sent with its
own headers, unsigned. -/
theorem get_key_suffix_walk (dir : List (String × String)) (labels : List String) :
    get_key dir labels
        = (dottedSuffixes labels).findSome? (fun ls => readKey dir (joinDots ls))
    ∧ (∀ a b rest, readKey dir (joinDots (a :: b :: rest)) = none →
        get_key dir (a :: b :: rest) = get_key dir (b :: rest))
    ∧ (∀ (sign : Req → S3Key → List (String × String)) (req : Req),
        req.s3Key = none → signedHeaders sign req = req.headers) := by
  refine ⟨?_, ?_, ?_⟩
  · induction labels with
    | nil => rfl
    | cons a rest ih =>
      cases rest with
      | nil => rfl
      | cons b rest2 =>
        rw [get_key, dottedSuffixes, List.findSome?_cons]
        cases h : readKey dir (joinDots (a :: b :: rest2)) with
        | some k => rfl
        | none => exact ih
  · intro a b rest h
    rw [get_key, h]
  · intro sign req h
    unfold signedHeaders
    rw [h]

theorem get_key_suffix_walk_witness :
    readKey [("a.b", "single")] (joinDots ["a", "b"]) = none
    ∧ get_key [("a.b", "single")] ["a", "b"] = get_key [("a.b", "single")] ["b"]
    ∧ signedHeaders (fun _ _ => [])
        { method := "PUT", url := "u", headers := [("x-amz-acl", "public-read")],
          data := [], s3Key := none }
        = [("x-amz-acl", "public-read")] := by
  have h := get_key_suffix_walk [("a.b", "single")] ["a", "b"]
  exact ⟨by decide, h.2.1 "a" "b" [] (by decide),
    h.2.2 (fun _ _ => [])
      { method := "PUT", url := "u", headers := [("x-amz-acl", "public-read")],
        data := [], s3Key := none } rfl⟩

/-! ### Whole-code-point blocks and artifacts (C8) -/

theorem getLastD_mem {α : Type} (l : List α) (d : α) (h : l ≠ []) :
    l.getLastD d ∈ l := by
  rw [List.getLastD_eq_getLast?, List.getLast?_eq_getLast_of_ne_nil h]
  exact List.getLast_mem h

theorem blocksEnc_merged (st : UpState) (h : BlocksEnc st) :
    ∀ c ∈ mergedChunks st, ∀ blk ∈ c, IsEnc blk := by
  intro c hc blk hblk
  rw [mergedChunks, mergeChunks, List.mem_reverse] at hc
  obtain ⟨c2, hc2, hblk2⟩ := mergeRev_blocks _ c hc blk hblk
  rw [List.mem_reverse] at hc2
  rcases List.mem_append.mp hc2 with h2 | h2
  · exact h.2 c2 h2 blk hblk2
  · have hc2e : c2 = [st.pending] := by simpa using h2
    subst hc2e
    have hbe : blk = st.pending := by simpa using hblk2
    subst hbe
    exact h.1

theorem blocksEnc_sendPending (fn : List Nat) (st : UpState) (h : BlocksEnc st) :
    BlocksEnc (sendPending fn st) := by
  rw [sendPending_eq]
  exact ⟨IsEnc_nil, blocksEnc_merged st h⟩

theorem storeEnc_sendPending (fn : List Nat) (st : UpState) (hB : BlocksEnc st)
    (hS : StoreEnc fn st) : StoreEnc fn (sendPending fn st) := by
  rw [sendPending_eq]
  intro s v hget
  by_cases hcs : s = chunksSfx
  · subst hcs
    rw [storeGet_write_self] at hget
    cases hget
    exact IsEnc_jsonBytes _
  · rw [storeGet_write_ne _ _ _ _ (fun hk => hcs (dotted_inj fn _ _ hk).symm)] at hget
    by_cases hls : s = lastSfx st
    · subst hls
      rw [storeGet_write_self] at hget
      cases hget
      apply IsEnc_flatten
      intro blk hblk
      exact blocksEnc_merged st hB _
        (getLastD_mem _ _ (mergeChunks_ne_nil _ (by simp))) blk hblk
    · rw [storeGet_write_ne _ _ _ _ (fun hk => hls (dotted_inj fn _ _ hk).symm)] at hget
      exact hS s v hget

theorem blocksEnc_writeFinal (fn : List Nat) (st : UpState) (h : BlocksEnc st) :
    BlocksEnc (writeFinal fn st) := by
  rw [writeFinal_eq]
  exact h

theorem storeEnc_writeFinal (fn : List Nat) (st : UpState) (hS : StoreEnc fn st) :
    StoreEnc fn (writeFinal fn st) := by
  rw [writeFinal_eq]
  intro s v hget
  rw [storeGet_delete] at hget
  split at hget
  · cases hget
  · rw [storeGet_write_ne _ _ _ _ (fn_ne_dotted fn s)] at hget
    exact hS s v hget

theorem blocksEnc_scanAssets (assets : List (List Nat × List Nat)) (st : UpState)
    (h : BlocksEnc st) : BlocksEnc (scanAssets st assets) := by
  obtain ⟨hc, hp, _, _, _⟩ := scanAssets_fields assets st
  unfold BlocksEnc
  rw [hc, hp]
  exact h

theorem storeEnc_scanAssets (fn : List Nat) (assets : List (List Nat × List Nat))
    (hA : AssetsOk fn assets) : ∀ (st : UpState), StoreEnc fn st →
      StoreEnc fn (scanAssets st assets) := by
  induction assets with
  | nil => exact fun st h => h
  | cons p rest ih =>
    intro st hS
    simp only [scanAssets, List.foldl_cons]
    have hA2 : AssetsOk fn rest := fun q hq => hA q (by simp [hq])
    split
    · exact ih hA2 st hS
    · apply ih hA2
      intro s v hget
      simp only [indexWrite] at hget
      rw [storeGet_write_ne _ _ _ _ (hA p (by simp) s)] at hget
      exact hS s v hget

theorem upEnc_step (fn : List Nat) (assets : List (List Nat × List Nat))
    (st : UpState) (op : UpOp) (hA : AssetsOk fn assets) (hB : BlocksEnc st)
    (hS : StoreEnc fn st) :
    BlocksEnc (upStep fn assets st op) ∧ StoreEnc fn (upStep fn assets st op) := by
  cases op with
  | start cps =>
    have hB1 : BlocksEnc { st with pending := encAll cps } := ⟨IsEnc_encAll cps, hB.2⟩
    have hS1 : StoreEnc fn { st with pending := encAll cps } := hS
    exact ⟨blocksEnc_scanAssets _ _ (blocksEnc_sendPending fn _ hB1),
      storeEnc_scanAssets fn assets hA _ (storeEnc_sendPending fn _ hB1 hS1)⟩
  | flush => exact ⟨blocksEnc_sendPending fn st hB, storeEnc_sendPending fn st hB hS⟩
  | write d final =>
    have hB2 : BlocksEnc { st with
        pending := st.pending ++ encAll (decode st.dec d final).1,
        dec := (decode st.dec d final).2 } := ⟨hB.1.append (IsEnc_encAll _), hB.2⟩
    have hS2 : StoreEnc fn { st with
        pending := st.pending ++ encAll (decode st.dec d final).1,
        dec := (decode st.dec d final).2 } := hS
    show BlocksEnc (writeOp fn st d final) ∧ StoreEnc fn (writeOp fn st d final)
    rw [writeOp_eq]
    cases final with
    | true =>
      rw [if_pos rfl]
      exact ⟨blocksEnc_writeFinal fn _ hB2, storeEnc_writeFinal fn _ hS2⟩
    | false =>
      rw [if_neg Bool.false_ne_true]
      rcases writeNF_cases fn
          { st with pending := st.pending ++ encAll (decode st.dec d false).1,
                    dec := (decode st.dec d false).2 } with hc | hc | hc <;> rw [hc]
      · exact ⟨blocksEnc_sendPending fn _ hB2, storeEnc_sendPending fn _ hB2 hS2⟩
      · exact ⟨hB2, hS2⟩
      · exact ⟨hB2, hS2⟩

theorem upEnc_run (fn : List Nat) (assets : List (List Nat × List Nat))
    (ops : List UpOp) (hA : AssetsOk fn assets) :
    ∀ (st : UpState), BlocksEnc st → StoreEnc fn st →
      BlocksEnc (ops.foldl (upStep fn assets) st)
      ∧ StoreEnc fn (ops.foldl (upStep fn assets) st) := by
  induction ops with
  | nil => exact fun st hB hS => ⟨hB, hS⟩
  | cons op rest ih =>
    intro st hB hS
    obtain ⟨hB2, hS2⟩ := upEnc_step fn assets st op hA hB hS
    exact ih _ hB2 hS2

/-- C8: every write feeds its data through the incremental UTF-8 decoder
(with `final` as the boundary flag) and appends the re-encoded result to
`pending`, so every flushed artifact `<fn>.<s>` is a concatenation of whole
encoded code points — no artifact boundary splits a multi-byte code point; in
particular `write(b"\xe2\x98", final=False)` followed by
`write(b"\x83", final=True)` yields the final object `\xe2\x98\x83`. -/
theorem utf8_boundary_safety (fn : List Nat) (assets : List (List Nat × List Nat))
    (ops : List UpOp) (hA : AssetsOk fn assets) :
    (∀ s v, storeGet (upRun fn assets ops).store (fn ++ 46 :: s) = some v → IsEnc v)
    ∧ storeGet (upRun [108, 111, 103] []
        [UpOp.write [226, 152] false, UpOp.write [131] true]).store [108, 111, 103]
      = some [226, 152, 131] := by
  constructor
  · intro s v hget
    refine (upEnc_run fn assets ops hA upInit ⟨IsEnc_nil, ?_⟩ ?_).2 s v hget
    · intro c hc
      cases hc
    · intro s2 v2 h2
      cases h2
  · decide

theorem utf8_boundary_safety_witness :
    storeGet (upRun [108, 111, 103] [] [UpOp.start []]).store
        ([108, 111, 103] ++ 46 :: chunksSfx) = some (jsonBytes [0])
    ∧ IsEnc (jsonBytes [0]) := by
  have h := (utf8_boundary_safety [108, 111, 103] [] [UpOp.start []]
      (by intro p hp; cases hp)).1 chunksSfx (jsonBytes [0]) (by decide)
  exact ⟨by decide, h⟩

/-! ### Evaluation lemmas for concrete runs (C2, C10) -/

theorem decByte_ascii (b : Nat) (hb : b ≤ 127) : decByte initDec b = ([b], initDec) := by
  unfold decByte decByteStart initDec
  simp [hb]

theorem decChunk_ascii (bs : List Nat) (h : ∀ x ∈ bs, x ≤ 127) :
    decChunk initDec bs = (bs, initDec) := by
  induction bs with
  | nil => rfl
  | cons b rest ih =>
    rw [decChunk, decByte_ascii b (h b (by simp)), ih fun x hx => h x (by simp [hx])]
    rfl

theorem decode_ascii (bs : List Nat) (h : ∀ x ∈ bs, x ≤ 127) :
    decode initDec bs false = (bs, initDec) := by
  unfold decode
  rw [decChunk_ascii bs h]
  rfl

theorem writeOp_ascii_fields (fn : List Nat) (st : UpState) (bs : List Nat)
    (hdec : st.dec = initDec) (hp : st.pending = []) (ht : st.timer = false)
    (ha : ∀ x ∈ bs, x ≤ 127) (hne : bs ≠ []) (hlen : bs.length ≤ SIZE_LIMIT) :
    (writeOp fn st bs false).chunks = st.chunks
    ∧ (writeOp fn st bs false).pending = bs
    ∧ (writeOp fn st bs false).dec = initDec
    ∧ (writeOp fn st bs false).timer = true := by
  have he : writeOp fn st bs false = { st with pending := bs, dec := initDec, timer := true } := by
    rw [writeOp_eq, if_neg Bool.false_ne_true, hdec, decode_ascii bs ha]
    show writeNF fn { st with pending := st.pending ++ encAll bs, dec := initDec } = _
    rw [hp, encAll_ascii bs ha, List.nil_append]
    unfold writeNF
    rw [if_pos (by simpa using hne), if_neg (by simpa using Nat.not_lt.mpr hlen),
      if_pos (by simpa using ht)]
  rw [he]
  exact ⟨rfl, rfl, rfl, rfl⟩

theorem sendPending_fields (fn : List Nat) (st : UpState) :
    (sendPending fn st).chunks = mergedChunks st
    ∧ (sendPending fn st).pending = []
    ∧ (sendPending fn st).dec = st.dec
    ∧ (sendPending fn st).timer = false
    ∧ storeGet (sendPending fn st).store (fn ++ 46 :: chunksSfx)
        = some (jsonBytes (mergedSizes st)) := by
  rw [sendPending_eq]
  exact ⟨rfl, rfl, rfl, rfl, storeGet_write_self _ _ _⟩

theorem mergeChunks_no_merge (X : List (List (List Nat))) (c : List (List Nat))
    (h : X = [] ∨ (X.getLastD []).length ≠ c.length) :
    mergeChunks (X ++ [c]) = X ++ [c] := by
  unfold mergeChunks
  rw [List.reverse_append]
  show (mergeRev (c :: X.reverse)).reverse = X ++ [c]
  cases hX : X.reverse with
  | nil =>
    have hXe : X = [] := by simpa using congrArg List.reverse hX
    subst hXe
    rfl
  | cons y rest =>
    have hXne : X ≠ [] := by
      intro hXe
      subst hXe
      cases hX
    have hy : X.getLastD [] = y := by
      rw [List.getLastD_eq_getLast?, ← List.head?_reverse, hX]
      rfl
    have hne : c.length ≠ y.length := by
      rcases h with h | h
      · exact absurd h hXne
      · rw [hy] at h
        exact fun he => h he.symm
    show (mergeStep c (y :: rest)).reverse = X ++ [c]
    rw [mergeStep, if_neg hne]
    have : X = (y :: rest).reverse := by
      have := congrArg List.reverse hX
      simpa using this
    rw [this]
    simp

/-! ### C10: flushing an empty pending buffer -/

/-- C10 counterexample: from the state after `start("x")` (one chunk holding
one block), `send_pending` with an empty pending buffer does NOT leave a
separate zero-length one-block chunk, does not write a range artifact with
equal offsets (`1-1` is absent), and the manifest reads `[1]`, which contains
no `0` entry. -/
theorem empty_flush_counterexample :
    storeGet (upRun [108, 111, 103] [] [UpOp.start [120], UpOp.flush]).store
        ([108, 111, 103] ++ 46 :: chunksSfx) = some (jsonBytes [1])
    ∧ (48 : Nat) ∉ jsonBytes [1]
    ∧ storeGet (upRun [108, 111, 103] [] [UpOp.start [120], UpOp.flush]).store
        ([108, 111, 103] ++ 46 :: (decBytes 1 ++ 45 :: decBytes 1)) = none
    ∧ (upRun [108, 111, 103] [] [UpOp.start [120], UpOp.flush]).chunks
        ≠ [[[120]], [[]]] :=
  ⟨by decide, by decide, by decide, by decide⟩

/-- C10 amended: calling `send_pending` with an empty pending buffer appends a
zero-length one-block chunk, and *when the 2048 rule does not merge it into
the previous chunk* (the chunk list is empty or its last chunk does not hold
exactly one block), the chunk survives: a range artifact whose start offset
equals its end offset is written with empty content and the manifest gains a
trailing `0` entry; in particular `start("")` writes `<name>.0-0` with empty
body and `<name>.chunks = [0]`. -/
theorem empty_flush_amended (fn : List Nat) (st : UpState)
    (hp : st.pending = [])
    (hm : st.chunks = [] ∨ (st.chunks.getLastD []).length ≠ 1) :
    (sendPending fn st).chunks = st.chunks ++ [[[]]]
    ∧ storeGet (sendPending fn st).store
        (fn ++ 46 :: (decBytes (st.chunks.map chunkSize).sum
          ++ 45 :: decBytes (st.chunks.map chunkSize).sum)) = some []
    ∧ storeGet (sendPending fn st).store (fn ++ 46 :: chunksSfx)
        = some (jsonBytes (st.chunks.map chunkSize ++ [0]))
    ∧ storeGet (upRun [108, 111, 103] [] [UpOp.start []]).store
        ([108, 111, 103] ++ 46 :: (decBytes 0 ++ 45 :: decBytes 0)) = some []
    ∧ storeGet (upRun [108, 111, 103] [] [UpOp.start []]).store
        ([108, 111, 103] ++ 46 :: chunksSfx) = some (jsonBytes [0]) := by
  have hmc : mergedChunks st = st.chunks ++ [[[]]] := by
    unfold mergedChunks
    rw [hp]
    apply mergeChunks_no_merge
    rcases hm with h | h
    · exact Or.inl h
    · exact Or.inr (by simpa using h)
  have hms : mergedSizes st = st.chunks.map chunkSize ++ [0] := by
    unfold mergedSizes
    rw [hmc, List.map_append]
    rfl
  have hT : (mergedSizes st).dropLast.sum = (st.chunks.map chunkSize).sum := by
    rw [hms, List.dropLast_concat]
  have hE : (mergedSizes st).getLastD 0 = 0 := by
    rw [hms]
    exact List.getLastD_concat _ _ _
  have hsfx : lastSfx st
      = decBytes (st.chunks.map chunkSize).sum
          ++ 45 :: decBytes (st.chunks.map chunkSize).sum := by
    unfold lastSfx
    rw [hT, hE, Nat.add_zero]
  have hlast : (mergedChunks st).getLastD [] = [[]] := by
    rw [hmc]
    exact List.getLastD_concat _ _ _
  refine ⟨?_, ?_, ?_, by decide, by decide⟩
  · rw [(sendPending_fields fn st).1, hmc]
  · have hkey : chunksSfx ≠ decBytes (st.chunks.map chunkSize).sum
        ++ 45 :: decBytes (st.chunks.map chunkSize).sum := by
      intro h
      exact lastSfx_ne_chunksSfx st (hsfx.trans h.symm)
    rw [sendPending_eq,
      storeGet_write_ne _ _ _ _ (fun hk => hkey (dotted_inj fn _ _ hk)), ← hsfx,
      storeGet_write_self, hlast]
    rfl
  · rw [(sendPending_fields fn st).2.2.2.2, hms]

theorem empty_flush_amended_witness :
    (sendPending [108, 111, 103] upInit).chunks = upInit.chunks ++ [[[]]]
    ∧ storeGet (sendPending [108, 111, 103] upInit).store
        ([108, 111, 103] ++ 46 :: (decBytes (upInit.chunks.map chunkSize).sum
          ++ 45 :: decBytes (upInit.chunks.map chunkSize).sum)) = some [] :=
  ⟨(empty_flush_amended [108, 111, 103] upInit rfl (Or.inl rfl)).1,
    (empty_flush_amended [108, 111, 103] upInit rfl (Or.inl rfl)).2.1⟩

/-! ### C2: the four-flush scenario -/

theorem fourFlush_eval (blk : List Nat) (ha : ∀ x ∈ blk, x ≤ 127)
    (hlen : blk.length = 600000) :
    (upRun [108, 111, 103] [] [UpOp.write blk false, UpOp.flush,
        UpOp.write blk false, UpOp.flush]).chunks = [[blk, blk]]
    ∧ (upRun [108, 111, 103] [] [UpOp.write blk false, UpOp.flush,
        UpOp.write blk false, UpOp.flush, UpOp.write blk false, UpOp.flush]).chunks
      = [[blk, blk], [blk]]
    ∧ (upRun [108, 111, 103] [] [UpOp.write blk false, UpOp.flush,
        UpOp.write blk false, UpOp.flush, UpOp.write blk false, UpOp.flush,
        UpOp.write blk false, UpOp.flush]).chunks = [[blk, blk, blk, blk]]
    ∧ storeGet (upRun [108, 111, 103] [] [UpOp.write blk false, UpOp.flush,
        UpOp.write blk false, UpOp.flush, UpOp.write blk false, UpOp.flush,
        UpOp.write blk false, UpOp.flush]).store ([108, 111, 103] ++ 46 :: chunksSfx)
      = some (jsonBytes [2400000]) := by
  have hne : blk ≠ [] := by
    intro h
    rw [h] at hlen
    simp at hlen
  have hle : blk.length ≤ SIZE_LIMIT := by
    rw [hlen]
    decide
  have e1 : upRun [108, 111, 103] [] [UpOp.write blk false]
      = writeOp [108, 111, 103] (upRun [108, 111, 103] [] []) blk false := by
    rw [show ([UpOp.write blk false] : List UpOp)
        = [] ++ [UpOp.write blk false] from rfl, upRun_snoc]
    rfl
  have h1 := writeOp_ascii_fields [108, 111, 103] upInit blk rfl rfl rfl ha hne hle
  have hc1 : (upRun [108, 111, 103] [] [UpOp.write blk false]).chunks = [] := by
    rw [e1]
    exact h1.1
  have hp1 : (upRun [108, 111, 103] [] [UpOp.write blk false]).pending = blk := by
    rw [e1]
    exact h1.2.1
  have hd1 : (upRun [108, 111, 103] [] [UpOp.write blk false]).dec = initDec := by
    rw [e1]
    exact h1.2.2.1
  have ht1 : (upRun [108, 111, 103] [] [UpOp.write blk false]).timer = true := by
    rw [e1]
    exact h1.2.2.2
  have e2 : upRun [108, 111, 103] [] [UpOp.write blk false, UpOp.flush]
      = sendPending [108, 111, 103] (upRun [108, 111, 103] [] [UpOp.write blk false]) := by
    rw [show ([UpOp.write blk false, UpOp.flush] : List UpOp)
        = [UpOp.write blk false] ++ [UpOp.flush] from rfl, upRun_snoc]
    rfl
  have hs2 := sendPending_fields [108, 111, 103] (upRun [108, 111, 103] [] [UpOp.write blk false])
  have hmc1 : mergedChunks (upRun [108, 111, 103] [] [UpOp.write blk false]) = [[blk]] := by
    unfold mergedChunks
    rw [hc1, hp1]
    rfl
  have hc2 : (upRun [108, 111, 103] [] [UpOp.write blk false, UpOp.flush]).chunks = [[blk]] := by
    rw [e2]
    exact hs2.1.trans hmc1
  have hp2 : (upRun [108, 111, 103] [] [UpOp.write blk false, UpOp.flush]).pending = [] := by
    rw [e2]
    exact hs2.2.1
  have hd2 : (upRun [108, 111, 103] [] [UpOp.write blk false, UpOp.flush]).dec = initDec := by
    rw [e2]
    exact hs2.2.2.1.trans hd1
  have ht2 : (upRun [108, 111, 103] [] [UpOp.write blk false, UpOp.flush]).timer = false := by
    rw [e2]
    exact hs2.2.2.2.1
  have e3 : upRun [108, 111, 103] [] [UpOp.write blk false, UpOp.flush, UpOp.write blk false]
      = writeOp [108, 111, 103] (upRun [108, 111, 103] [] [UpOp.write blk false, UpOp.flush]) blk false := by
    rw [show ([UpOp.write blk false, UpOp.flush, UpOp.write blk false] : List UpOp)
        = [UpOp.write blk false, UpOp.flush] ++ [UpOp.write blk false] from rfl, upRun_snoc]
    rfl
  have h3 := writeOp_ascii_fields [108, 111, 103] (upRun [108, 111, 103] [] [UpOp.write blk false, UpOp.flush]) blk
    hd2 hp2 ht2 ha hne hle
  have hc3 : (upRun [108, 111, 103] [] [UpOp.write blk false, UpOp.flush, UpOp.write blk false]).chunks = [[blk]] := by
    rw [e3]
    exact h3.1.trans hc2
  have hp3 : (upRun [108, 111, 103] [] [UpOp.write blk false, UpOp.flush, UpOp.write blk false]).pending = blk := by
    rw [e3]
    exact h3.2.1
  have hd3 : (upRun [108, 111, 103] [] [UpOp.write blk false, UpOp.flush, UpOp.write blk false]).dec = initDec := by
    rw [e3]
    exact h3.2.2.1
  have e4 : upRun [108, 111, 103] [] [UpOp.write blk false, UpOp.flush, UpOp.write blk false, UpOp.flush]
      = sendPending [108, 111, 103] (upRun [108, 111, 103] [] [UpOp.write blk false, UpOp.flush, UpOp.write blk false]) := by
    rw [show ([UpOp.write blk false, UpOp.flush, UpOp.write blk false, UpOp.flush] : List UpOp)
        = [UpOp.write blk false, UpOp.flush, UpOp.write blk false] ++ [UpOp.flush] from rfl, upRun_snoc]
    rfl
  have hs4 := sendPending_fields [108, 111, 103] (upRun [108, 111, 103] [] [UpOp.write blk false, UpOp.flush, UpOp.write blk false])
  have hmc3 : mergedChunks (upRun [108, 111, 103] [] [UpOp.write blk false, UpOp.flush, UpOp.write blk false]) = [[blk, blk]] := by
    unfold mergedChunks
    rw [hc3, hp3]
    rfl
  have hc4 : (upRun [108, 111, 103] [] [UpOp.write blk false, UpOp.flush, UpOp.write blk false, UpOp.flush]).chunks = [[blk, blk]] := by
    rw [e4]
    exact hs4.1.trans hmc3
  have hp4 : (upRun [108, 111, 103] [] [UpOp.write blk false, UpOp.flush, UpOp.write blk false, UpOp.flush]).pending = [] := by
    rw [e4]
    exact hs4.2.1
  have hd4 : (upRun [108, 111, 103] [] [UpOp.write blk false, UpOp.flush, UpOp.write blk false, UpOp.flush]).dec = initDec := by
    rw [e4]
    exact hs4.2.2.1.trans hd3
  have ht4 : (upRun [108, 111, 103] [] [UpOp.write blk false, UpOp.flush, UpOp.write blk false, UpOp.flush]).timer = false := by
    rw [e4]
    exact hs4.2.2.2.1
  have e5 : upRun [108, 111, 103] [] [UpOp.write blk false, UpOp.flush, UpOp.write blk false, UpOp.flush, UpOp.write blk false]
      = writeOp [108, 111, 103] (upRun [108, 111, 103] [] [UpOp.write blk false, UpOp.flush, UpOp.write blk false, UpOp.flush]) blk false := by
    rw [show ([UpOp.write blk false, UpOp.flush, UpOp.write blk false, UpOp.flush, UpOp.write blk false] : List UpOp)
        = [UpOp.write blk false, UpOp.flush, UpOp.write blk false, UpOp.flush] ++ [UpOp.write blk false] from rfl, upRun_snoc]
    rfl
  have h5 := writeOp_ascii_fields [108, 111, 103] (upRun [108, 111, 103] [] [UpOp.write blk false, UpOp.flush, UpOp.write blk false, UpOp.flush]) blk
    hd4 hp4 ht4 ha hne hle
  have hc5 : (upRun [108, 111, 103] [] [UpOp.write blk false, UpOp.flush, UpOp.write blk false, UpOp.flush, UpOp.write blk false]).chunks = [[blk, blk]] := by
    rw [e5]
    exact h5.1.trans hc4
  have hp5 : (upRun [108, 111, 103] [] [UpOp.write blk false, UpOp.flush, UpOp.write blk false, UpOp.flush, UpOp.write blk false]).pending = blk := by
    rw [e5]
    exact h5.2.1
  have hd5 : (upRun [108, 111, 103] [] [UpOp.write blk false, UpOp.flush, UpOp.write blk false, UpOp.flush, UpOp.write blk false]).dec = initDec := by
    rw [e5]
    exact h5.2.2.1
  have e6 : upRun [108, 111, 103] [] [UpOp.write blk false, UpOp.flush, UpOp.write blk false, UpOp.flush, UpOp.write blk false, UpOp.flush]
      = sendPending [108, 111, 103] (upRun [108, 111, 103] [] [UpOp.write blk false, UpOp.flush, UpOp.write blk false, UpOp.flush, UpOp.write blk false]) := by
    rw [show ([UpOp.write blk false, UpOp.flush, UpOp.write blk false, UpOp.flush, UpOp.write blk false, UpOp.flush] : List UpOp)
        = [UpOp.write blk false, UpOp.flush, UpOp.write blk false, UpOp.flush, UpOp.write blk false] ++ [UpOp.flush] from rfl, upRun_snoc]
    rfl
  have hs6 := sendPending_fields [108, 111, 103] (upRun [108, 111, 103] [] [UpOp.write blk false, UpOp.flush, UpOp.write blk false, UpOp.flush, UpOp.write blk false])
  have hmc5 : mergedChunks (upRun [108, 111, 103] [] [UpOp.write blk false, UpOp.flush, UpOp.write blk false, UpOp.flush, UpOp.write blk false]) = [[blk, blk], [blk]] := by
    unfold mergedChunks
    rw [hc5, hp5]
    rfl
  have hc6 : (upRun [108, 111, 103] [] [UpOp.write blk false, UpOp.flush, UpOp.write blk false, UpOp.flush, UpOp.write blk false, UpOp.flush]).chunks = [[blk, blk], [blk]] := by
    rw [e6]
    exact hs6.1.trans hmc5
  have hp6 : (upRun [108, 111, 103] [] [UpOp.write blk false, UpOp.flush, UpOp.write blk false, UpOp.flush, UpOp.write blk false, UpOp.flush]).pending = [] := by
    rw [e6]
    exact hs6.2.1
  have hd6 : (upRun [108, 111, 103] [] [UpOp.write blk false, UpOp.flush, UpOp.write blk false, UpOp.flush, UpOp.write blk false, UpOp.flush]).dec = initDec := by
    rw [e6]
    exact hs6.2.2.1.trans hd5
  have ht6 : (upRun [108, 111, 103] [] [UpOp.write blk false, UpOp.flush, UpOp.write blk false, UpOp.flush, UpOp.write blk false, UpOp.flush]).timer = false := by
    rw [e6]
    exact hs6.2.2.2.1
  have e7 : upRun [108, 111, 103] [] [UpOp.write blk false, UpOp.flush, UpOp.write blk false, UpOp.flush, UpOp.write blk false, UpOp.flush, UpOp.write blk false]
      = writeOp [108, 111, 103] (upRun [108, 111, 103] [] [UpOp.write blk false, UpOp.flush, UpOp.write blk false, UpOp.flush, UpOp.write blk false, UpOp.flush]) blk false := by
    rw [show ([UpOp.write blk false, UpOp.flush, UpOp.write blk false, UpOp.flush, UpOp.write blk false, UpOp.flush, UpOp.write blk false] : List UpOp)
        = [UpOp.write blk false, UpOp.flush, UpOp.write blk false, UpOp.flush, UpOp.write blk false, UpOp.flush] ++ [UpOp.write blk false] from rfl, upRun_snoc]
    rfl
  have h7 := writeOp_ascii_fields [108, 111, 103] (upRun [108, 111, 103] [] [UpOp.write blk false, UpOp.flush, UpOp.write blk false, UpOp.flush, UpOp.write blk false, UpOp.flush]) blk
    hd6 hp6 ht6 ha hne hle
  have hc7 : (upRun [108, 111, 103] [] [UpOp.write blk false, UpOp.flush, UpOp.write blk false, UpOp.flush, UpOp.write blk false, UpOp.flush, UpOp.write blk false]).chunks = [[blk, blk], [blk]] := by
    rw [e7]
    exact h7.1.trans hc6
  have hp7 : (upRun [108, 111, 103] [] [UpOp.write blk false, UpOp.flush, UpOp.write blk false, UpOp.flush, UpOp.write blk false, UpOp.flush, UpOp.write blk false]).pending = blk := by
    rw [e7]
    exact h7.2.1
  have hd7 : (upRun [108, 111, 103] [] [UpOp.write blk false, UpOp.flush, UpOp.write blk false, UpOp.flush, UpOp.write blk false, UpOp.flush, UpOp.write blk false]).dec = initDec := by
    rw [e7]
    exact h7.2.2.1
  have e8 : upRun [108, 111, 103] [] [UpOp.write blk false, UpOp.flush, UpOp.write blk false, UpOp.flush, UpOp.write blk false, UpOp.flush, UpOp.write blk false, UpOp.flush]
      = sendPending [108, 111, 103] (upRun [108, 111, 103] [] [UpOp.write blk false, UpOp.flush, UpOp.write blk false, UpOp.flush, UpOp.write blk false, UpOp.flush, UpOp.write blk false]) := by
    rw [show ([UpOp.write blk false, UpOp.flush, UpOp.write blk false, UpOp.flush, UpOp.write blk false, UpOp.flush, UpOp.write blk false, UpOp.flush] : List UpOp)
        = [UpOp.write blk false, UpOp.flush, UpOp.write blk false, UpOp.flush, UpOp.write blk false, UpOp.flush, UpOp.write blk false] ++ [UpOp.flush] from rfl, upRun_snoc]
    rfl
  have hs8 := sendPending_fields [108, 111, 103] (upRun [108, 111, 103] [] [UpOp.write blk false, UpOp.flush, UpOp.write blk false, UpOp.flush, UpOp.write blk false, UpOp.flush, UpOp.write blk false])
  have hmc7 : mergedChunks (upRun [108, 111, 103] [] [UpOp.write blk false, UpOp.flush, UpOp.write blk false, UpOp.flush, UpOp.write blk false, UpOp.flush, UpOp.write blk false]) = [[blk, blk, blk, blk]] := by
    unfold mergedChunks
    rw [hc7, hp7]
    rfl
  have hc8 : (upRun [108, 111, 103] [] [UpOp.write blk false, UpOp.flush, UpOp.write blk false, UpOp.flush, UpOp.write blk false, UpOp.flush, UpOp.write blk false, UpOp.flush]).chunks = [[blk, blk, blk, blk]] := by
    rw [e8]
    exact hs8.1.trans hmc7
  have hp8 : (upRun [108, 111, 103] [] [UpOp.write blk false, UpOp.flush, UpOp.write blk false, UpOp.flush, UpOp.write blk false, UpOp.flush, UpOp.write blk false, UpOp.flush]).pending = [] := by
    rw [e8]
    exact hs8.2.1
  have hd8 : (upRun [108, 111, 103] [] [UpOp.write blk false, UpOp.flush, UpOp.write blk false, UpOp.flush, UpOp.write blk false, UpOp.flush, UpOp.write blk false, UpOp.flush]).dec = initDec := by
    rw [e8]
    exact hs8.2.2.1.trans hd7
  have ht8 : (upRun [108, 111, 103] [] [UpOp.write blk false, UpOp.flush, UpOp.write blk false, UpOp.flush, UpOp.write blk false, UpOp.flush, UpOp.write blk false, UpOp.flush]).timer = false := by
    rw [e8]
    exact hs8.2.2.2.1
  have hms7 : mergedSizes (upRun [108, 111, 103] [] [UpOp.write blk false, UpOp.flush, UpOp.write blk false, UpOp.flush, UpOp.write blk false, UpOp.flush, UpOp.write blk false]) = [2400000] := by
    unfold mergedSizes
    rw [hmc7]
    simp [chunkSize, hlen]
  have hman : storeGet (upRun [108, 111, 103] [] [UpOp.write blk false, UpOp.flush, UpOp.write blk false, UpOp.flush, UpOp.write blk false, UpOp.flush, UpOp.write blk false, UpOp.flush]).store
      ([108, 111, 103] ++ 46 :: chunksSfx) = some (jsonBytes [2400000]) := by
    rw [e8, hs8.2.2.2.2, hms7]
  exact ⟨hc4, hc6, hc8, hman⟩

theorem jsonBytes_one_ne_three (a b c d : Nat) : jsonBytes [a] ≠ jsonBytes [b, c, d] := by
  intro h
  have h44 : (44 : Nat) ∈ jsonBytes [b, c, d] := by
    unfold jsonBytes joinComma
    exact List.mem_cons_of_mem _ (List.mem_append_left _
      (List.mem_append_right _ (List.mem_cons_self _ _)))
  have h44n : (44 : Nat) ∉ jsonBytes [a] := by
    intro hm
    unfold jsonBytes joinComma at hm
    rcases List.mem_cons.mp hm with h1 | h1
    · omega
    rcases List.mem_append.mp h1 with h2 | h2
    · have := decBytes_mem a 44 h2
      omega
    · have h93 : (44 : Nat) = 93 := List.mem_singleton.mp h2
      omega
  rw [← h] at h44
  exact h44n h44

/-- C2 counterexample: with four successive 600 kB writes each followed by
`send_pending`, after the second flush the chunk list is NOT `[[b1], [b2]]`
(the 2048 rule merges the two one-block chunks at once), and the final
`<name>.chunks` artifact does NOT read `[600000, 600000, 1200000]`. -/
theorem fourFlush_counterexample :
    (upRun [108, 111, 103] [] [UpOp.write blk600 false, UpOp.flush,
        UpOp.write blk600 false, UpOp.flush]).chunks ≠ [[blk600], [blk600]]
    ∧ storeGet (upRun [108, 111, 103] [] [UpOp.write blk600 false, UpOp.flush,
        UpOp.write blk600 false, UpOp.flush, UpOp.write blk600 false, UpOp.flush,
        UpOp.write blk600 false, UpOp.flush]).store ([108, 111, 103] ++ 46 :: chunksSfx)
      ≠ some (jsonBytes [600000, 600000, 1200000]) := by
  have hb : ∀ x ∈ blk600, x ≤ 127 := by
    intro x hx
    have hx2 : x ∈ List.replicate 600000 65 := hx
    have := List.eq_of_mem_replicate hx2
    omega
  have hl : blk600.length = 600000 := List.length_replicate 600000 65
  have h := fourFlush_eval blk600 hb hl
  constructor
  · rw [h.1]
    intro hf
    have h2 := congrArg List.length hf
    simp at h2
  · rw [h.2.2.2]
    intro hf
    exact jsonBytes_one_ne_three 2400000 600000 600000 1200000 (Option.some.inj hf)

/-- C2 amended: starting from an empty `ChunkedUploader` (no prior `start`),
after four successive 600 kB writes each followed by `send_pending`: after the
second flush the chunk list is `[[b1, b2]]` (the 2048 rule merges the two
one-block chunks immediately); after the third it is `[[b1, b2], [b3]]`; after
the fourth the merge cascades twice, giving `[[b1, b2, b3, b4]]`; and the
`<name>.chunks` artifact then contains the JSON array `[2400000]`. -/
theorem fourFlush_merge_amended (blk : List Nat) (ha : ∀ x ∈ blk, x ≤ 127)
    (hlen : blk.length = 600000) :
    (upRun [108, 111, 103] [] [UpOp.write blk false, UpOp.flush,
        UpOp.write blk false, UpOp.flush]).chunks = [[blk, blk]]
    ∧ (upRun [108, 111, 103] [] [UpOp.write blk false, UpOp.flush,
        UpOp.write blk false, UpOp.flush, UpOp.write blk false, UpOp.flush]).chunks
      = [[blk, blk], [blk]]
    ∧ (upRun [108, 111, 103] [] [UpOp.write blk false, UpOp.flush,
        UpOp.write blk false, UpOp.flush, UpOp.write blk false, UpOp.flush,
        UpOp.write blk false, UpOp.flush]).chunks = [[blk, blk, blk, blk]]
    ∧ storeGet (upRun [108, 111, 103] [] [UpOp.write blk false, UpOp.flush,
        UpOp.write blk false, UpOp.flush, UpOp.write blk false, UpOp.flush,
        UpOp.write blk false, UpOp.flush]).store ([108, 111, 103] ++ 46 :: chunksSfx)
      = some (jsonBytes [2400000]) :=
  fourFlush_eval blk ha hlen

theorem fourFlush_merge_amended_witness :
    (∀ x ∈ blk600, x ≤ 127)
    ∧ blk600.length = 600000
    ∧ (upRun [108, 111, 103] [] [UpOp.write blk600 false, UpOp.flush,
        UpOp.write blk600 false, UpOp.flush]).chunks = [[blk600, blk600]] := by
  have hb : ∀ x ∈ blk600, x ≤ 127 := by
    intro x hx
    have hx2 : x ∈ List.replicate 600000 65 := hx
    have := List.eq_of_mem_replicate hx2
    omega
  have hl : blk600.length = 600000 := List.length_replicate 600000 65
  exact ⟨hb, hl, (fourFlush_merge_amended blk600 hb hl).1⟩

/-! ### C1: finalization writes the whole stream and deletes every artifact -/

theorem chunksFlat_append (a b : List (List (List Nat))) :
    chunksFlat (a ++ b) = chunksFlat a ++ chunksFlat b := by
  simp [chunksFlat]

theorem sendPending_flat (fn : List Nat) (st : UpState) :
    chunksFlat (sendPending fn st).chunks ++ (sendPending fn st).pending
      = chunksFlat st.chunks ++ st.pending := by
  rw [(sendPending_fields fn st).1, (sendPending_fields fn st).2.1, List.append_nil]
  unfold mergedChunks
  rw [chunksFlat_mergeChunks, chunksFlat_append]
  simp [chunksFlat]

theorem accepted_append (l1 l2 : List UpOp) (p : List Nat × DecState) :
    accepted (l1 ++ l2) p = accepted l2 (accepted l1 p) := by
  induction l1 generalizing p with
  | nil => rfl
  | cons op rest ih =>
    cases op <;> simp only [List.cons_append, accepted] <;> exact ih _

theorem writeOp_nonfinal_flat (fn : List Nat) (st : UpState) (d : List Nat) :
    chunksFlat (writeOp fn st d false).chunks ++ (writeOp fn st d false).pending
      = (chunksFlat st.chunks ++ st.pending) ++ encAll (decode st.dec d false).1
    ∧ (writeOp fn st d false).dec = (decode st.dec d false).2 := by
  rw [writeOp_eq, if_neg Bool.false_ne_true]
  rcases writeNF_cases fn
      { st with pending := st.pending ++ encAll (decode st.dec d false).1,
                dec := (decode st.dec d false).2 } with hc | hc | hc <;> rw [hc]
  · constructor
    · rw [sendPending_flat]
      exact (List.append_assoc _ _ _).symm
    · exact (sendPending_fields fn _).2.2.1
  · exact ⟨(List.append_assoc _ _ _).symm, rfl⟩
  · exact ⟨(List.append_assoc _ _ _).symm, rfl⟩

theorem stream_inv (fn : List Nat) (assets : List (List Nat × List Nat)) :
    ∀ (ops : List UpOp), StreamOps ops → ∀ (st : UpState),
      chunksFlat (ops.foldl (upStep fn assets) st).chunks
          ++ (ops.foldl (upStep fn assets) st).pending
        = (accepted ops (chunksFlat st.chunks ++ st.pending, st.dec)).1
      ∧ (ops.foldl (upStep fn assets) st).dec
        = (accepted ops (chunksFlat st.chunks ++ st.pending, st.dec)).2 := by
  intro ops
  induction ops with
  | nil => exact fun _ st => ⟨rfl, rfl⟩
  | cons op rest ih =>
    intro hops st
    have hop := hops op (by simp)
    have hrest : StreamOps rest := fun op2 h2 => hops op2 (by simp [h2])
    rw [List.foldl_cons]
    cases op with
    | start cps => exact absurd rfl (hop.1 cps)
    | flush =>
      have h1 := ih hrest (sendPending fn st)
      rw [sendPending_flat, (sendPending_fields fn st).2.2.1] at h1
      exact h1
    | write d f =>
      cases f with
      | true => exact absurd rfl (hop.2 d)
      | false =>
        have h1 := ih hrest (writeOp fn st d false)
        rw [(writeOp_nonfinal_flat fn st d).1, (writeOp_nonfinal_flat fn st d).2] at h1
        exact h1

theorem addSfx_mem_self (l : List (List Nat)) (s : List Nat) : s ∈ addSfx l s := by
  unfold addSfx
  split
  · assumption
  · simp

theorem addSfx_mem_of_mem (l : List (List Nat)) (s x : List Nat) (h : x ∈ l) :
    x ∈ addSfx l s := by
  unfold addSfx
  split
  · exact h
  · simp [h]

theorem upInv_sendPending (fn : List Nat) (st : UpState) (h : UpInv fn st) :
    UpInv fn (sendPending fn st) := by
  rw [sendPending_eq]
  constructor
  · intro s hs
    by_cases h1 : s = chunksSfx
    · subst h1
      exact addSfx_mem_of_mem _ _ _ h.2
    · rw [storeGet_write_ne _ _ _ _ (fun hk => h1 (dotted_inj fn _ _ hk).symm)] at hs
      by_cases h2 : s = lastSfx st
      · subst h2
        exact addSfx_mem_self _ _
      · rw [storeGet_write_ne _ _ _ _ (fun hk => h2 (dotted_inj fn _ _ hk).symm)] at hs
        exact addSfx_mem_of_mem _ _ _ (h.1 s hs)
  · exact addSfx_mem_of_mem _ _ _ h.2

theorem upInv_writeFinal (fn : List Nat) (st : UpState) (h : UpInv fn st) :
    UpInv fn (writeFinal fn st) := by
  rw [writeFinal_eq]
  refine ⟨?_, h.2⟩
  intro s hs
  rw [storeGet_delete] at hs
  split at hs
  · cases hs
  · rw [storeGet_write_ne _ _ _ _ (fn_ne_dotted fn s)] at hs
    exact h.1 s hs

theorem upInv_scanAssets (fn : List Nat) (assets : List (List Nat × List Nat))
    (hA : AssetsOk fn assets) : ∀ (st : UpState), UpInv fn st →
      UpInv fn (scanAssets st assets) := by
  induction assets with
  | nil => exact fun st h => h
  | cons p rest ih =>
    intro st h
    simp only [scanAssets, List.foldl_cons]
    have hA2 : AssetsOk fn rest := fun q hq => hA q (by simp [hq])
    split
    · exact ih hA2 st h
    · apply ih hA2
      refine ⟨?_, h.2⟩
      intro s hs
      simp only [indexWrite] at hs
      rw [storeGet_write_ne _ _ _ _ (hA p (by simp) s)] at hs
      exact h.1 s hs

theorem upInv_step (fn : List Nat) (assets : List (List Nat × List Nat))
    (st : UpState) (op : UpOp) (hA : AssetsOk fn assets) (h : UpInv fn st) :
    UpInv fn (upStep fn assets st op) := by
  cases op with
  | start cps =>
    exact upInv_scanAssets fn assets hA _ (upInv_sendPending fn _ h)
  | flush => exact upInv_sendPending fn st h
  | write d final =>
    have h2 : UpInv fn { st with
        pending := st.pending ++ encAll (decode st.dec d final).1,
        dec := (decode st.dec d final).2 } := h
    show UpInv fn (writeOp fn st d final)
    rw [writeOp_eq]
    cases final with
    | true =>
      rw [if_pos rfl]
      exact upInv_writeFinal fn _ h2
    | false =>
      rw [if_neg Bool.false_ne_true]
      rcases writeNF_cases fn
          { st with pending := st.pending ++ encAll (decode st.dec d false).1,
                    dec := (decode st.dec d false).2 } with hc | hc | hc <;> rw [hc]
      · exact upInv_sendPending fn _ h2
      · exact h2
      · exact h2

theorem upInv_run (fn : List Nat) (assets : List (List Nat × List Nat))
    (ops : List UpOp) (hA : AssetsOk fn assets) :
    ∀ (st : UpState), UpInv fn st → UpInv fn (ops.foldl (upStep fn assets) st) := by
  induction ops with
  | nil => exact fun st h => h
  | cons op rest ih =>
    intro st h
    exact ih _ (upInv_step fn assets st op hA h)

theorem startOp_stream_fields (fn : List Nat) (assets : List (List Nat × List Nat))
    (cps : List Nat) :
    chunksFlat (upStep fn assets upInit (UpOp.start cps)).chunks
        ++ (upStep fn assets upInit (UpOp.start cps)).pending = encAll cps
    ∧ (upStep fn assets upInit (UpOp.start cps)).dec = initDec := by
  show chunksFlat (scanAssets (sendPending fn { upInit with pending := encAll cps })
        assets).chunks
      ++ (scanAssets (sendPending fn { upInit with pending := encAll cps })
        assets).pending = encAll cps
    ∧ (scanAssets (sendPending fn { upInit with pending := encAll cps }) assets).dec
      = initDec
  obtain ⟨hc, hp, _, hdec, _⟩ := scanAssets_fields assets
    (sendPending fn { upInit with pending := encAll cps })
  constructor
  · rw [hc, hp, sendPending_flat]
    show [] ++ encAll cps = encAll cps
    exact List.nil_append _
  · rw [hdec, (sendPending_fields fn _).2.2.1]
    rfl

/-- C1: for every run of `ChunkedUploader` operations — an optional initial
`start`, then streaming writes and flushes, ending in `write(d, final=True)` —
the object stored under the bare name `fn` contains exactly the concatenation
of every byte accepted by the uploader (the encoded `start` text followed by
each write's re-encoded incremental-decoder output, with the final flush), and
afterwards no auxiliary artifact `<fn>.<s>` remains in the store: every suffix
in the accumulated `suffixes` set has been deleted and nothing else was ever
stored under a dotted name. -/
theorem chunkedUploader_finalize (fn : List Nat) (assets : List (List Nat × List Nat))
    (pre body : List UpOp) (d : List Nat)
    (hA : AssetsOk fn assets)
    (hpre : pre = [] ∨ ∃ cps, pre = [UpOp.start cps])
    (hbody : StreamOps body) :
    storeGet (upRun fn assets (pre ++ body ++ [UpOp.write d true])).store fn
      = some (accepted (pre ++ body ++ [UpOp.write d true]) ([], initDec)).1
    ∧ ∀ s : List Nat,
        storeGet (upRun fn assets (pre ++ body ++ [UpOp.write d true])).store
          (fn ++ 46 :: s) = none := by
  have hsnoc : upRun fn assets (pre ++ body ++ [UpOp.write d true])
      = upStep fn assets (upRun fn assets (pre ++ body)) (UpOp.write d true) := by
    rw [upRun_snoc]
  have hmid : chunksFlat (upRun fn assets (pre ++ body)).chunks
        ++ (upRun fn assets (pre ++ body)).pending
      = (accepted (pre ++ body) ([], initDec)).1
    ∧ (upRun fn assets (pre ++ body)).dec
      = (accepted (pre ++ body) ([], initDec)).2 := by
    rcases hpre with h | ⟨cps, h⟩
    · subst h
      rw [List.nil_append]
      exact stream_inv fn assets body hbody upInit
    · subst h
      have hstep : upRun fn assets ([UpOp.start cps] ++ body)
          = body.foldl (upStep fn assets) (upStep fn assets upInit (UpOp.start cps)) := rfl
      have h2 := stream_inv fn assets body hbody (upStep fn assets upInit (UpOp.start cps))
      obtain ⟨hf, hd⟩ := startOp_stream_fields fn assets cps
      rw [hf, hd] at h2
      have hacc : accepted ([UpOp.start cps] ++ body) ([], initDec)
          = accepted body (encAll cps, initDec) := by
        rw [List.singleton_append]
        simp only [accepted]
        rw [List.nil_append]
      rw [hstep, hacc]
      exact h2
  have hinv : UpInv fn (upRun fn assets (pre ++ body)) := by
    apply upInv_run fn assets (pre ++ body) hA upInit
    constructor
    · intro s hs
      cases hs
    · show chunksSfx ∈ upInit.suffixes
      simp [upInit]
  have hstep2 : upStep fn assets (upRun fn assets (pre ++ body)) (UpOp.write d true)
      = writeFinal fn { upRun fn assets (pre ++ body) with
          pending := (upRun fn assets (pre ++ body)).pending
            ++ encAll (decode (upRun fn assets (pre ++ body)).dec d true).1,
          dec := (decode (upRun fn assets (pre ++ body)).dec d true).2 } := by
    show writeOp fn (upRun fn assets (pre ++ body)) d true = _
    rw [writeOp_eq, if_pos rfl]
  rw [hsnoc, hstep2, writeFinal_eq]
  constructor
  · rw [storeGet_delete, if_neg ?hfn]
    case hfn =>
      intro hmem
      obtain ⟨s, _, hs⟩ := List.mem_map.mp hmem
      exact fn_ne_dotted fn s hs.symm
    rw [storeGet_write_self]
    congr 1
    have hacc2 : (accepted (pre ++ body ++ [UpOp.write d true]) ([], initDec)).1
        = (accepted (pre ++ body) ([], initDec)).1
          ++ encAll (decode (accepted (pre ++ body) ([], initDec)).2 d true).1 := by
      rw [accepted_append]
      simp only [accepted]
    rw [hacc2, ← hmid.1, ← hmid.2]
    exact (List.append_assoc _ _ _).symm
  · intro s
    rw [storeGet_delete]
    split
    · rfl
    · rename_i hnm
      rw [storeGet_write_ne _ _ _ _ (fn_ne_dotted fn s)]
      cases hopt : storeGet (upRun fn assets (pre ++ body)).store (fn ++ 46 :: s) with
      | none => rfl
      | some v =>
        exfalso
        apply hnm
        exact List.mem_map.mpr ⟨s, hinv.1 s (by rw [hopt]; rfl), rfl⟩

theorem chunkedUploader_finalize_witness :
    storeGet (upRun [108, 111, 103] []
        ([UpOp.start [104]] ++ [] ++ [UpOp.write [33] true])).store [108, 111, 103]
      = some [104, 33]
    ∧ storeGet (upRun [108, 111, 103] []
        ([UpOp.start [104]] ++ [] ++ [UpOp.write [33] true])).store
        ([108, 111, 103] ++ 46 :: chunksSfx) = none := by
  have h := chunkedUploader_finalize [108, 111, 103] [] [UpOp.start [104]] [] [33]
    (by intro p hp; cases hp) (Or.inr ⟨[104], rfl⟩) (by intro op hop; cases hop)
  exact ⟨h.1.trans (by decide), h.2 chunksSfx⟩

/-! ### C5: pacing and FIFO discipline of the HTTP consumer -/

theorem qInv_init : QInv qInit := by
  refine ⟨?_, ?_, rfl, rfl, ?_, ?_, ?_, ?_⟩
  · intro r h
    cases h
  · intro r td h
    cases h
  · intro _
    refine ⟨rfl, fun q t h => ?_⟩
    simp [qInit] at h
  · intro r h
    cases h
  · intro r td h
    cases h
  · intro i c st h1 h2
    simp [qInit] at h1

theorem qInv_step {s s2 : QState} (hinv : QInv s) (hstep : QStep s s2) : QInv s2 := by
  obtain ⟨i1, i2, i3, i4, i5, i6, i7, i8⟩ := hinv
  cases hstep with
  | tick d hd =>
    refine ⟨i1, ?_, i3, i4, ?_, i6, ?_, i8⟩
    · intro r td h
      obtain ⟨hh, ht⟩ := i2 r td h
      exact ⟨hh, le_trans ht (le_add_of_nonneg_right hd)⟩
    · intro h
      obtain ⟨hl, hg⟩ := i5 h
      exact ⟨hl, fun q t hq => le_trans (hg q t hq) (le_add_of_nonneg_right hd)⟩
    · intro r td h
      obtain ⟨hl, hc⟩ := i7 r td h
      exact ⟨hl, hc⟩
  | put r =>
    refine ⟨?_, ?_, ?_, i4, i5, i6, i7, i8⟩
    · intro r2 h2
      have hh := i1 r2 h2
      rw [List.head?_append, hh]
      rfl
    · intro r2 td h2
      obtain ⟨hh, ht⟩ := i2 r2 td h2
      refine ⟨?_, ht⟩
      rw [List.head?_append, hh]
      rfl
    · rw [← List.append_assoc, i3]
  | send r h hq =>
    refine ⟨?_, ?_, i3, ?_, ?_, ?_, ?_, ?_⟩
    · intro r2 h2
      cases h2
      exact hq
    · intro r2 td h2
      cases h2
    · rw [List.map_append, i4, h]
      simp [phaseReqs]
    · intro h2
      cases h2
    · intro r2 h2
      cases h2
      rw [List.length_append, (i5 h).1]
      simp
    · intro r2 td h2
      cases h2
    · intro i c st h1 h2
      rw [List.get?_eq_getElem?] at h2
      by_cases hlt : i + 1 < s.starts.length
      · rw [List.getElem?_append_left hlt] at h2
        exact i8 i c st h1 (by rw [List.get?_eq_getElem?]; exact h2)
      · push_neg at hlt
        have hi1 : i + 1 < s.starts.length + 1 := by
          by_contra hc
          push_neg at hc
          rw [List.getElem?_eq_none (by simpa using hc)] at h2
          cases h2
        have hieq : i + 1 = s.starts.length := by omega
        rw [hieq, List.getElem?_append_right (le_refl _), Nat.sub_self] at h2
        have hst : st = (r, s.now) := by
          have := h2
          simpa using this.symm
        have hic : i < s.completes.length := by
          rw [List.get?_eq_getElem?] at h1
          by_contra hc
          push_neg at hc
          rw [List.getElem?_eq_none hc] at h1
          cases h1
        have hlen0 := (i5 h).1
        have hcl : s.completes.getLast? = some c := by
          rw [List.getLast?_eq_getElem?]
          rw [List.get?_eq_getElem?] at h1
          have : s.completes.length - 1 = i := by omega
          rw [this]
          exact h1
        obtain ⟨q, t⟩ := c
        have hgap := (i5 h).2 q t hcl
        rw [hst]
        exact hgap
  | respond r h =>
    refine ⟨?_, ?_, i3, ?_, ?_, ?_, ?_, ?_⟩
    · intro r2 h2
      cases h2
    · intro r2 td h2
      cases h2
      exact ⟨i1 r h, le_refl _⟩
    · rw [i4, h]
      rfl
    · intro h2
      cases h2
    · intro r2 h2
      cases h2
    · intro r2 td h2
      cases h2
      refine ⟨?_, List.getLast?_concat _⟩
      rw [List.length_append, i6 r h]
      simp
    · intro i c st h1 h2
      rw [List.get?_eq_getElem?] at h1
      by_cases hlt : i < s.completes.length
      · rw [List.getElem?_append_left hlt] at h1
        exact i8 i c st (by rw [List.get?_eq_getElem?]; exact h1) h2
      · exfalso
        push_neg at hlt
        have hlen := i6 r h
        have hi1 : i + 1 < s.starts.length := by
          rw [List.get?_eq_getElem?] at h2
          by_contra hc
          push_neg at hc
          rw [List.getElem?_eq_none hc] at h2
          cases h2
        omega
  | wake r td h ht =>
    have hqhead := (i2 r td h).1
    have hqeq : r :: s.queue.tail = s.queue := List.cons_head?_tail hqhead
    refine ⟨?_, ?_, ?_, ?_, ?_, ?_, ?_, i8⟩
    · intro r2 h2
      cases h2
    · intro r2 td2 h2
      cases h2
    · rw [List.append_assoc, List.singleton_append, hqeq]
      exact i3
    · rw [i4, h]
      simp [phaseReqs]
    · intro _
      refine ⟨(i7 r td h).1, ?_⟩
      intro q t hq
      rw [(i7 r td h).2] at hq
      have hqt := Option.some.inj hq
      have ht2 : t = td := (congrArg Prod.snd hqt).symm
      rw [ht2]
      exact ht
    · intro r2 h2
      cases h2
    · intro r2 td2 h2
      cases h2

theorem qInv_reach (s : QState) (h : QReach s) : QInv s := by
  induction h with
  | refl => exact qInv_init
  | tail _ hbc ih => exact qInv_step ih hbc

/-- C5: in every execution of the HttpQueue consumer loop, the 1-second sleep
separates the completion of each request from the start of the next (`gapOk`:
at least one second elapses between completion `i` and start `i+1`); the queue
length stays at least 1 from the moment a request is taken in flight until
after its post-request sleep (the item is popped from the AsyncQueue only
after the sleep); and requests are issued in FIFO enqueue order (the issued
sequence is a prefix of the enqueued sequence). -/
theorem httpQueue_pacing_fifo (s : QState) (h : QReach s) :
    gapOk s
    ∧ (∀ r, (s.phase = QPhase.inflight r ∨ ∃ td, s.phase = QPhase.sleeping r td) →
        1 ≤ s.queue.length)
    ∧ (∃ rest, s.starts.map Prod.fst ++ rest = s.enqueued) := by
  have hinv := qInv_reach s h
  obtain ⟨i1, i2, i3, i4, i5, i6, i7, i8⟩ := hinv
  refine ⟨i8, ?_, ?_⟩
  · intro r hr
    have hhead : s.queue.head? = some r := by
      rcases hr with h1 | ⟨td, h1⟩
      · exact i1 r h1
      · exact (i2 r td h1).1
    have hqeq : r :: s.queue.tail = s.queue := List.cons_head?_tail hhead
    rw [← hqeq]
    simp
  · cases hphase : s.phase with
    | idle =>
      refine ⟨s.queue, ?_⟩
      rw [i4, hphase]
      show (s.popped ++ phaseReqs QPhase.idle) ++ s.queue = s.enqueued
      rw [show phaseReqs QPhase.idle = [] from rfl, List.append_nil]
      exact i3
    | inflight r =>
      have hhead : s.queue.head? = some r := i1 r hphase
      have hqeq : r :: s.queue.tail = s.queue := List.cons_head?_tail hhead
      refine ⟨s.queue.tail, ?_⟩
      rw [i4, hphase]
      show (s.popped ++ phaseReqs (QPhase.inflight r)) ++ s.queue.tail = s.enqueued
      rw [show phaseReqs (QPhase.inflight r) = [r] from rfl, List.append_assoc,
        List.singleton_append, hqeq]
      exact i3
    | sleeping r td =>
      have hhead : s.queue.head? = some r := (i2 r td hphase).1
      have hqeq : r :: s.queue.tail = s.queue := List.cons_head?_tail hhead
      refine ⟨s.queue.tail, ?_⟩
      rw [i4, hphase]
      show (s.popped ++ phaseReqs (QPhase.sleeping r td)) ++ s.queue.tail = s.enqueued
      rw [show phaseReqs (QPhase.sleeping r td) = [r] from rfl, List.append_assoc,
        List.singleton_append, hqeq]
      exact i3

theorem httpQueue_pacing_fifo_witness :
    gapOk qInit
    ∧ (∀ r, (qInit.phase = QPhase.inflight r
        ∨ ∃ td, qInit.phase = QPhase.sleeping r td) → 1 ≤ qInit.queue.length)
    ∧ (∃ rest, qInit.starts.map Prod.fst ++ rest = qInit.enqueued) :=
  httpQueue_pacing_fifo qInit Relation.ReflTransGen.refl

theorem github_get_cache_cases_witness :
    lruGet [(("r", 5), CacheEntry.mk [("if-none-match", "v1")] 7)] ("r", 5)
        = some (CacheEntry.mk [("if-none-match", "v1")] 7)
    ∧ (githubGet (fun _ j => j + 1)
        [(("r", 5), CacheEntry.mk [("if-none-match", "v1")] 7)] "r" 5
        ⟨304, some "v1", none, 0⟩).2 = some 7 := by
  have h := (github_get_cache_cases (fun _ j => j + 1) (fun _ j => j * 2)
      [(("r", 5), CacheEntry.mk [("if-none-match", "v1")] 7)] "r" 5
      ⟨304, some "v1", none, 0⟩).1
      (CacheEntry.mk [("if-none-match", "v1")] 7) (by decide) rfl
  exact ⟨by decide, h.1⟩

end Bots
